import Mathlib

/-!
# Disk usage analyzer: scan engine and navigation controller

A shallow embedding of `scanner.c` and `ui.c`.

* C strings are Lean strings; one `Char` stands for one byte, so `strlen` is
  `String.length` and `strcmp` compares the numeric values of the characters.
* `off_t` values are integers of 64 bits: an addition that leaves the range wraps
  around in two's complement (`off_t_add`), which is what the machine does where the
  C standard leaves signed overflow undefined.
* The file system is a record of what exists at each path (`FS`); the system
  calls `opendir`, `lstat` and `realpath` read it and reject path names of
  `PATH_MAX` bytes or more, as the kernel does (`ENAMETOOLONG`).
* `malloc`, `realloc` and `strdup` succeed or fail as an allocation oracle says.
-/

namespace DiskUsage

/-! ## Platform -/

/-- Value of `PATH_MAX` in `<limits.h>` on Linux. -/
def PATH_MAX : Nat := 4096

/-- File type bits of `st_mode`, as tested by `S_ISLNK`, `S_ISDIR`, `S_ISREG`. -/
inductive FileType where
  | lnk
  | dir
  | reg
  | other
deriving DecidableEq, Repr

/-- The two fields of `struct stat` the scanner reads.  The length `st_size` of a file
is an `off_t` that is never negative. -/
structure Stat where
  st_mode : FileType
  st_size : Nat
deriving DecidableEq, Repr

/-- A file system state.  `dirs p` is the sequence of names `readdir` yields for the
directory at `p` (`none` when it cannot be opened), `inodes p` is the metadata of the
object at `p` itself, links not followed (`none` when it cannot be read), and
`canon p` is the canonical absolute path of `p` (`none` when it does not resolve). -/
structure FS where
  dirs : String → Option (List String)
  inodes : String → Option Stat
  canon : String → Option String

/-- System call `opendir` followed by reading the whole stream with `readdir`. -/
def opendir (fs : FS) (path : String) : Option (List String) :=
  if PATH_MAX ≤ path.length then none else fs.dirs path

/-- System call `lstat`. -/
def lstat (fs : FS) (path : String) : Option Stat :=
  if PATH_MAX ≤ path.length then none else fs.inodes path

/-- Library call `realpath`. -/
def realpath (fs : FS) (path : String) : Option String :=
  if PATH_MAX ≤ path.length then none
  else match fs.canon path with
    | none => none
    | some r => if PATH_MAX ≤ r.length then none else some r

/-- Reduction of an integer to the range of `off_t`, from `-2 ^ 63` to `2 ^ 63 - 1`, in
two's complement. -/
def off_t_wrap (x : Int) : Int :=
  (x + 9223372036854775808) % 18446744073709551616 - 9223372036854775808

/-- The addition `a + b` of two `off_t` values. -/
def off_t_add (a b : Int) : Int := off_t_wrap (a + b)

/-- Allocation oracle: `mem k` tells whether the `k`-th allocation request of a
scan (counted from 0, in program order) succeeds. -/
abbrev Mem := Nat → Bool

/-- The oracle under which every allocation succeeds. -/
def Mem.ok : Mem := fun _ => true

/-! ## scanner.h -/

/-- `DirEntry`: one subdirectory of the scanned directory. -/
structure DirEntry where
  name : String
  path : String
  size : Int
deriving DecidableEq, Repr

/-- `DirView`.  The field `path` is the result of an unchecked `strdup`, hence
optional; `count` is the length of `entries`. -/
structure DirView where
  path : Option String
  entries : List DirEntry
  total_size : Int
deriving DecidableEq, Repr

/-- The `count` field of a `DirView`. -/
def DirView.count (v : DirView) : Nat := v.entries.length

/-! ## scanner.c -/

/-- Library call `strcmp` on the characters of two strings.  The C standard fixes only
the sign of the result, decided by the first pair of characters that differ, compared
as unsigned values, the end of a string coming before every character. -/
def strcmpAux : List Char → List Char → Int
  | [], [] => 0
  | [], _ :: _ => -1
  | _ :: _, [] => 1
  | a :: as, b :: bs =>
    if a = b then strcmpAux as bs else if a.toNat < b.toNat then -1 else 1

/-- Library call `strcmp`. -/
def strcmp (a b : String) : Int := strcmpAux a.data b.data

/-- Body of the `readdir` loop of `dir_size_recursive`: the new value of `total`
after the directory entry `d_name`; `recurse` is the recursive call. -/
def dir_size_entry (fs : FS) (recurse : String → Option Int) (path : String) (total : Int)
    (d_name : String) : Option Int :=
  if strcmp d_name "." = 0 ∨ strcmp d_name ".." = 0 then some total
  else
    let full := path ++ "/" ++ d_name
    if PATH_MAX ≤ full.length then some total
    else match lstat fs full with
      | none => some total
      | some st =>
        if st.st_mode = FileType.lnk then some total
        else if st.st_mode = FileType.dir then
          (recurse full).map (fun sz => off_t_add total sz)
        else if st.st_mode = FileType.reg then some (off_t_add total st.st_size)
        else some total

/-- `dir_size_recursive`, with the depth of the C call stack bounded by `fuel`;
`none` means the bound was reached, which is not a value the C function returns. -/
def dir_size_fuel (fs : FS) : Nat → String → Option Int
  | 0, _ => none
  | fuel + 1, path =>
    match opendir fs path with
    | none => some 0
    | some names => names.foldlM (dir_size_entry fs (dir_size_fuel fs fuel) path) 0

/-- `dir_size_recursive`.  A call stack of depth `PATH_MAX` is always enough, because
every recursive call is on a strictly longer path shorter than `PATH_MAX`
(`dir_size_fuel_isSome`). -/
def dir_size_recursive (fs : FS) (path : String) : Int :=
  (dir_size_fuel fs PATH_MAX path).getD 0

/-- `compare_entries_desc`. -/
def compare_entries_desc (ea eb : DirEntry) : Int :=
  if ea.size < eb.size then 1
  else if ea.size > eb.size then -1
  else strcmp ea.name eb.name

/-- Insertion of one element into a list ordered by the comparison `cmp`. -/
def qsortInsert {α : Type} (cmp : α → α → Int) (x : α) : List α → List α
  | [] => [x]
  | y :: ys => if cmp x y ≤ 0 then x :: y :: ys else y :: qsortInsert cmp x ys

/-- Library call `qsort`, as an insertion sort with the C comparison function.  The
algorithm of the library is not specified; the result is the same for every sorting
algorithm when elements that compare equal are equal, as the entries of one scan are
(equal names give equal paths and sizes). -/
def qsort {α : Type} (cmp : α → α → Int) : List α → List α
  | [] => []
  | x :: xs => qsortInsert cmp x (qsort cmp xs)

/-- Local variables of the `readdir` loop of `scan_directory`; `count` is the
length of `entries`, `nalloc` the number of allocation requests made so far. -/
structure ScanLoop where
  entries : List DirEntry
  capacity : Nat
  total : Int
  nalloc : Nat
deriving DecidableEq, Repr

/-- One iteration of the `readdir` loop of `scan_directory`; `none` is the early
`return NULL` of the out-of-memory branches. -/
def scan_entry (fs : FS) (mem : Mem) (path : String) (s : ScanLoop) (d_name : String) :
    Option ScanLoop :=
  if strcmp d_name "." = 0 ∨ strcmp d_name ".." = 0 then some s
  else
    let full := path ++ "/" ++ d_name
    if PATH_MAX ≤ full.length then some s
    else match lstat fs full with
      | none => some s
      | some st =>
        if st.st_mode = FileType.lnk then some s
        else if st.st_mode = FileType.dir then
          let sz := dir_size_recursive fs full
          let total := off_t_add s.total sz
          if s.entries.length = s.capacity then
            if mem s.nalloc then
              let newcap := if s.capacity = 0 then 16 else s.capacity * 2
              if mem (s.nalloc + 1) && mem (s.nalloc + 2) then
                some { entries := s.entries ++ [⟨d_name, full, sz⟩], capacity := newcap,
                       total := total, nalloc := s.nalloc + 3 }
              else none
            else none
          else
            if mem s.nalloc && mem (s.nalloc + 1) then
              some { entries := s.entries ++ [⟨d_name, full, sz⟩], capacity := s.capacity,
                     total := total, nalloc := s.nalloc + 2 }
            else none
        else if st.st_mode = FileType.reg then
          some { s with total := off_t_add s.total st.st_size }
        else some s

/-- `scan_directory`; `none` is `NULL`. -/
def scan_directory (fs : FS) (mem : Mem) (path : String) : Option DirView :=
  match opendir fs path with
  | none => none
  | some names =>
    match names.foldlM (scan_entry fs mem path) ⟨[], 0, 0, 0⟩ with
    | none => none
    | some s =>
      let entries := if s.entries.length > 0 then qsort compare_entries_desc s.entries
                     else s.entries
      if mem s.nalloc then
        some { path := if mem (s.nalloc + 1) then some path else none,
               entries := entries, total_size := s.total }
      else none

/-- A double precision value of the form `m / 2 ^ e`.  Every value `human_size`
computes has this form: a converted integer, divided by `1024.0` a few times, which
only lowers the binary exponent and is therefore exact. -/
structure Dyadic where
  m : Nat
  e : Nat
deriving DecidableEq, Repr

/-- The conversion `(double)bytes` of a non-negative integer: the nearest value with
53 significant bits, ties to even. -/
def to_double (bytes : Nat) : Dyadic :=
  if bytes < 2 ^ 53 then ⟨bytes, 0⟩
  else
    let sh := Nat.log2 bytes - 52
    let q := bytes / 2 ^ sh
    let r := bytes % 2 ^ sh
    let q1 := if 2 * r > 2 ^ sh ∨ (2 * r = 2 ^ sh ∧ q % 2 = 1) then q + 1 else q
    ⟨q1 * 2 ^ sh, 0⟩

/-- The array `units` of `human_size`. -/
def units : List String := ["B", "KiB", "MiB", "GiB", "TiB"]

/-- The `while` loop of `human_size` on `(size, unit_index)`.  The first argument
bounds the number of iterations; 4 is enough, since each one increments `unit_index`
and the loop stops at 4. -/
def human_size_while : Nat → Dyadic → Nat → Dyadic × Nat
  | 0, size, unit_index => (size, unit_index)
  | fuel + 1, size, unit_index =>
    if 1024 * 2 ^ size.e ≤ size.m ∧ unit_index < 4 then
      human_size_while fuel ⟨size.m, size.e + 10⟩ (unit_index + 1)
    else (size, unit_index)

/-- The number of hundredths `printf` shows for the conversion `%.2f`: the exact
value times 100, rounded to the nearest integer, ties to even. -/
def hundredths (size : Dyadic) : Nat :=
  let q := 100 * size.m / 2 ^ size.e
  let r := 100 * size.m % 2 ^ size.e
  if 2 * r > 2 ^ size.e ∨ (2 * r = 2 ^ size.e ∧ q % 2 = 1) then q + 1 else q

/-- The text of `printf("%.2f", size)`. -/
def printf_2f (size : Dyadic) : String :=
  let h := hundredths size
  Nat.repr (h / 100) ++ "." ++ Nat.repr (h % 100 / 10) ++ Nat.repr (h % 10)

/-- `human_size`: the text `snprintf` formats.  The buffer of the caller (64 bytes
at both call sites) holds it whole; the longest text for an `off_t` has 14 characters. -/
def human_size (bytes : Nat) : String :=
  let r := human_size_while 4 (to_double bytes) 0
  printf_2f r.1 ++ " " ++ units.getD r.2 ""

/-! ## ui.c -/

/-- Library call `strncpy(dst, src, n)` followed by `dst[n] = 0`. -/
def strncpy (src : String) (n : Nat) : String := ⟨src.data.take n⟩

/-- Removes the slashes at the end of a reversed path. -/
def dropSlashes (rev : List Char) : List Char := rev.dropWhile (fun c => c = '/')

/-- Library call `dirname` (glibc) on the characters of a path. -/
def dirnameAux (path : List Char) : List Char :=
  -- the part of the path in which the last slash is looked for
  let body : List Char :=
    if path.length > 1 ∧ path.getLast? = some '/' then
      let stripped := (dropSlashes path.reverse).reverse
      if stripped = [] then path else stripped
    else path
  if '/' ∉ body then ['.']
  else
    -- the characters before the last slash of `body`
    let pre := ((body.reverse.dropWhile (fun c => c ≠ '/')).drop 1).reverse
    let pre1 := (dropSlashes pre.reverse).reverse
    if pre1 = [] then
      if pre.length = 1 then path.take 2 else path.take 1
    else pre1

/-- Library call `dirname`. -/
def dirname (path : String) : String := ⟨dirnameAux path.data⟩

/-- `parent_path`, with `out_size = PATH_MAX` as at its call site. -/
def parent_path (current : String) : String :=
  if strcmp current "/" = 0 then strncpy "/" (PATH_MAX - 1)
  else
    let tmp := strncpy current (PATH_MAX - 1)
    let dir := dirname tmp
    if dir.data = [] then strncpy "/" (PATH_MAX - 1)
    else strncpy dir (PATH_MAX - 1)

/-- Key events of `ui_run`, after the dispatch on the value of `getch`:
`q`/`Q`; `KEY_UP`; `KEY_DOWN`; newline or `KEY_ENTER`; `KEY_BACKSPACE`, 127,
`KEY_LEFT` or `h`; `r`/`R`; any other key. -/
inductive Key where
  | quit
  | up
  | down
  | enter
  | parent
  | rescan
  | ignored
deriving DecidableEq, Repr

/-- Local variables of `ui_run` that live across loop iterations.  `view` is `none`
when the pointer is `NULL`. -/
structure UI where
  current : String
  view : Option DirView
  selected : Int
  scroll_offset : Int
deriving DecidableEq, Repr

/-- What the environment does during one key event: the file system and allocator
seen by `realpath` and the first scan of the event, and those seen by the second
scan of the Enter branch. -/
structure Env where
  fs : FS
  mem : Mem
  fs2 : FS
  mem2 : Mem

/-- An environment in which the file system is `fs` throughout and allocation succeeds. -/
def Env.still (fs : FS) : Env := ⟨fs, Mem.ok, fs, Mem.ok⟩

/-- Where `ui_run` stands after some key events: in its loop with the given local
variables, returned with the given value, or in undefined behaviour (a read through
a `NULL` view or beyond the end of `entries`). -/
inductive Outcome where
  | running (st : UI)
  | exited (code : Nat)
  | undefined
deriving DecidableEq, Repr

/-- The local variables of the loop, while it runs. -/
def Outcome.state : Outcome → Option UI
  | Outcome.running st => some st
  | _ => none

/-- The conversion `(size_t)i` of an `int`. -/
def size_t_of_int (i : Int) : Nat := (i % 2 ^ 64).toNat

/-- `visible_rows` as `draw_view` computes it from the terminal height. -/
def draw_visible_rows (rows : Int) : Int :=
  let y_start : Int := 5
  let visible_rows := rows - y_start - 2
  if visible_rows < 1 then 1 else visible_rows

/-- The entry loop of `draw_view`: the indices `idx` of the entries drawn for
`i, i + 1, ...` while `i < visible_rows`, the first argument bounding the iterations. -/
def draw_rows_from (count : Nat) (scroll_offset visible_rows : Int) : Nat → Int → List Nat
  | 0, _ => []
  | fuel + 1, i =>
    if i < visible_rows then
      let idx := size_t_of_int (scroll_offset + i)
      if idx ≥ count then []
      else idx :: draw_rows_from count scroll_offset visible_rows fuel (i + 1)
    else []

/-- `draw_view`, reduced to the indices of the entries it draws, in screen order
(the entry `idx` is drawn on line `5 + i` and highlighted when `(int)idx == selected`). -/
def draw_view (rows : Int) (view : DirView) (scroll_offset : Int) : List Nat :=
  if view.count = 0 then []
  else
    let visible_rows := draw_visible_rows rows
    draw_rows_from view.count scroll_offset visible_rows visible_rows.toNat 0

/-- The initialisation of `ui_run` up to the loop; `none` is `return 1`. -/
def ui_init (fs : FS) (mem : Mem) (start_path : String) : Option UI :=
  let current := match realpath fs start_path with
    | some r => r
    | none => strncpy start_path (PATH_MAX - 1)
  match scan_directory fs mem current with
  | none => none
  | some view => some ⟨current, some view, 0, 0⟩

/-- The key dispatch of one iteration of the loop of `ui_run`, on a view that is
not `NULL`; `rows` is the terminal height read before the loop. -/
def ui_key (rows : Int) (env : Env) (st : UI) (view : DirView) : Key → Outcome
  | Key.quit => Outcome.exited 0
  | Key.up =>
    if st.selected > 0 then
      let selected := st.selected - 1
      Outcome.running { st with
        selected := selected
        scroll_offset := if selected < st.scroll_offset then selected else st.scroll_offset }
    else Outcome.running st
  | Key.down =>
    if (size_t_of_int st.selected + 1) % 2 ^ 64 < view.count then
      let selected := st.selected + 1
      let visible_rows := rows - 5
      Outcome.running { st with
        selected := selected
        scroll_offset :=
          if selected ≥ st.scroll_offset + visible_rows then selected - visible_rows + 1
          else st.scroll_offset }
    else Outcome.running st
  | Key.enter =>
    if view.count = 0 then Outcome.running st
    else if st.selected < 0 then Outcome.undefined
    else match view.entries.get? st.selected.toNat with
      | none => Outcome.undefined
      | some e =>
        match realpath env.fs e.path with
        | none => Outcome.running st
        | some resolved =>
          match scan_directory env.fs env.mem resolved with
          | none =>
            Outcome.running { st with view := scan_directory env.fs2 env.mem2 st.current }
          | some v =>
            Outcome.running ⟨strncpy resolved (PATH_MAX - 1), some v, 0, 0⟩
  | Key.parent =>
    let parent := parent_path st.current
    if strcmp parent st.current = 0 then Outcome.running st
    else match scan_directory env.fs env.mem parent with
      | none => Outcome.running st
      | some new_view =>
        Outcome.running ⟨strncpy parent (PATH_MAX - 1), some new_view, 0, 0⟩
  | Key.rescan =>
    match scan_directory env.fs env.mem st.current with
    | none => Outcome.running st
    | some new_view => Outcome.running { st with
        view := some new_view, selected := 0, scroll_offset := 0 }
  | Key.ignored => Outcome.running st

/-- One iteration of the loop of `ui_run`: `draw_view` reads through `view`, which
is undefined on `NULL`, then the key is dispatched. -/
def ui_step (rows : Int) (env : Env) (st : UI) (key : Key) : Outcome :=
  match st.view with
  | none => Outcome.undefined
  | some view => ui_key rows env st view key

/-- The loop of `ui_run` on a finite sequence of key events. -/
def ui_loop (rows : Int) (st : UI) : List (Env × Key) → Outcome
  | [] => Outcome.running st
  | (env, key) :: rest =>
    match ui_step rows env st key with
    | Outcome.running st1 => ui_loop rows st1 rest
    | out => out

/-- `ui_run` on a finite sequence of key events, each with what the environment does
during it; `fs` and `mem` are the file system and the allocator at startup. -/
def ui_run (rows : Int) (fs : FS) (mem : Mem) (start_path : String)
    (events : List (Env × Key)) : Outcome :=
  match ui_init fs mem start_path with
  | none => Outcome.exited 1
  | some st => ui_loop rows st events

/-! ## Specification vocabulary -/

/-- Byte-wise lexicographic order on names: `a` comes no later than `b`. -/
def lex_le : List Char → List Char → Prop
  | [], _ => True
  | _ :: _, [] => False
  | a :: as, b :: bs => a.toNat < b.toNat ∨ (a = b ∧ lex_le as bs)

/-- The child `n` of the directory `path` is not `.` or `..`, its metadata can be
read without following links, and it is a real directory. -/
def is_real_subdir (fs : FS) (path n : String) : Bool :=
  decide (n ≠ "." ∧ n ≠ ".." ∧
    (lstat fs (path ++ "/" ++ n)).map Stat.st_mode = some FileType.dir)

/-- Byte length of the child `n` of the directory `path` when `lstat` reports a regular
file at the composed path, 0 otherwise. -/
def direct_file_size (fs : FS) (path n : String) : Nat :=
  if n = "." ∨ n = ".." then 0
  else match lstat fs (path ++ "/" ++ n) with
    | some st => if st.st_mode = FileType.reg then st.st_size else 0
    | none => 0

/-- Sum of the byte lengths of the regular files directly inside `path`, whose
listing is `names`, that `lstat` reports at their composed path. -/
def direct_file_bytes (fs : FS) (path : String) (names : List String) : Nat :=
  (names.map (direct_file_size fs path)).sum

/-- Byte length of the child `n` of the directory `path` when the file system holds a
regular file there, 0 otherwise, whether or not a system call accepts the path. -/
def present_file_size (fs : FS) (path n : String) : Nat :=
  if n = "." ∨ n = ".." then 0
  else match fs.inodes (path ++ "/" ++ n) with
    | some st => if st.st_mode = FileType.reg then st.st_size else 0
    | none => 0

/-- Sum of the byte lengths of the regular files the file system holds directly inside
`path`, whose listing is `names`. -/
def present_file_bytes (fs : FS) (path : String) (names : List String) : Nat :=
  (names.map (present_file_size fs path)).sum

/-- The entries a scan of `path` is expected to collect from the listing `names`,
in listing order. -/
def expected_entries (fs : FS) (path : String) (names : List String) : List DirEntry :=
  (names.filter (is_real_subdir fs path)).map
    (fun n => ⟨n, path ++ "/" ++ n, dir_size_recursive fs (path ++ "/" ++ n)⟩)

/-- Two listings of one directory: the same names, enumerated in any order, or no
listing at all. -/
def same_listing : Option (List String) → Option (List String) → Prop
  | some a, some b => a.Perm b
  | none, none => True
  | _, _ => False

/-- Two observations of one file system state: the same metadata and canonical paths,
and for every directory the same children, which `readdir` may enumerate in a
different order. -/
def FS.same_state (fs fs1 : FS) : Prop :=
  (∀ p, fs.inodes p = fs1.inodes p) ∧ (∀ p, fs.canon p = fs1.canon p) ∧
    (∀ p, same_listing (fs.dirs p) (fs1.dirs p))

/-- No two separators follow each other. -/
def no_repeated_separators : List Char → Bool
  | [] => true
  | [_] => true
  | a :: b :: rest => !(a = '/' && b = '/') && no_repeated_separators (b :: rest)

/-- An absolute, normalized path: it starts with a separator, no two separators
follow each other, and it does not end with a separator unless it is `/`. -/
def is_absolute_normalized (p : String) : Prop :=
  p.data.head? = some '/' ∧ no_repeated_separators p.data = true ∧
    (p.data = ['/'] ∨ p.data.getLast? ≠ some '/')

/-- The last component of a path: the characters after its last separator. -/
def last_component (p : String) : String :=
  ⟨(p.data.reverse.takeWhile (fun c => c ≠ '/')).reverse⟩

/-- A file name, as `readdir` returns them: not empty and without separator. -/
def is_file_name (n : String) : Prop := n.data ≠ [] ∧ '/' ∉ n.data

/-! ## File system trees -/

/-- A finite file system tree below a directory: regular files with their byte length,
symbolic links, other special files, children whose metadata cannot be read, and
directories, readable or not, with their named children. -/
inductive Node where
  | reg (size : Nat)
  | lnk
  | other
  | nostat
  | dir (readable : Bool) (children : List (String × Node))

mutual
/-- Byte lengths of all regular files reachable from a node through directory edges
that are not symbolic links; a directory that cannot be opened gives access to nothing. -/
def Node.files : Node → List Nat
  | Node.reg size => [size]
  | Node.dir true children => Node.filesL children
  | _ => []
/-- `Node.files` over the children of a directory. -/
def Node.filesL : List (String × Node) → List Nat
  | [] => []
  | (_, c) :: cs => Node.files c ++ Node.filesL cs
end

/-- Reference recursive size: the sum of the byte lengths of all regular files
reachable through directory edges that are not symbolic links. -/
def recursive_size (t : Node) : Nat := (Node.files t).sum

/-- Whether a node is a directory. -/
def Node.isDir : Node → Bool
  | Node.dir _ _ => true
  | _ => false

mutual
/-- Number of nested directory levels of a tree. -/
def Node.depth : Node → Nat
  | Node.dir _ children => Node.depthL children + 1
  | _ => 0
/-- `Node.depth` over the children of a directory. -/
def Node.depthL : List (String × Node) → Nat
  | [] => 0
  | (_, c) :: cs => max (Node.depth c) (Node.depthL cs)
end

mutual
/-- The file system `fs` holds the tree `t` at the path `p`: the object at `p` is of
the kind of the root of `t`, and when it is a readable directory its listing, `.` and
`..` apart, names the children of the root in order, each of which is held at the
path composed of `p`, a slash and its name.  Nothing is said of what lies behind a
symbolic link or inside a directory that cannot be opened. -/
def FS.isTree (fs : FS) : String → Node → Bool
  | p, Node.reg size => decide (fs.inodes p = some ⟨FileType.reg, size⟩)
  | p, Node.lnk => decide ((fs.inodes p).map Stat.st_mode = some FileType.lnk)
  | p, Node.other => decide ((fs.inodes p).map Stat.st_mode = some FileType.other)
  | p, Node.nostat => decide (fs.inodes p = none)
  | p, Node.dir readable children =>
    decide ((fs.inodes p).map Stat.st_mode = some FileType.dir) &&
    (if readable then
      decide ((fs.dirs p).map (List.filter (fun n => decide (n ≠ "." ∧ n ≠ ".."))) =
        some (children.map Prod.fst)) && FS.isTreeL fs p children
    else decide (fs.dirs p = none))
/-- `FS.isTree` over the children of the directory at `p`. -/
def FS.isTreeL (fs : FS) : String → List (String × Node) → Bool
  | _, [] => true
  | p, (n, c) :: cs => FS.isTree fs (p ++ "/" ++ n) c && FS.isTreeL fs p cs
end

mutual
/-- Every path composed for a node of the tree that the traversal reaches is shorter
than `PATH_MAX`. -/
def Node.fits : String → Node → Bool
  | p, Node.dir true children => Node.fitsL p children
  | _, _ => true
/-- `Node.fits` over the children of the directory at `p`. -/
def Node.fitsL : String → List (String × Node) → Bool
  | _, [] => true
  | p, (n, c) :: cs =>
    decide ((p ++ "/" ++ n).length < PATH_MAX) && Node.fits (p ++ "/" ++ n) c &&
      Node.fitsL p cs
end

mutual
/-- The part of the recursive size that lies at paths shorter than `PATH_MAX`. -/
def Node.visible_size : String → Node → Nat
  | _, Node.reg size => size
  | p, Node.dir true children =>
    if PATH_MAX ≤ p.length then 0 else Node.visible_sizeL p children
  | _, _ => 0
/-- `Node.visible_size` over the children of the directory at `p`. -/
def Node.visible_sizeL : String → List (String × Node) → Nat
  | _, [] => 0
  | p, (n, c) :: cs =>
    (if PATH_MAX ≤ (p ++ "/" ++ n).length then 0 else Node.visible_size (p ++ "/" ++ n) c) +
      Node.visible_sizeL p cs
end

/-- The entries expected for the subdirectories among the children of the directory
at `p`, in the order of the children. -/
def tree_entries (p : String) (children : List (String × Node)) : List DirEntry :=
  (children.filter (fun nc => Node.isDir nc.2)).map
    (fun nc => ⟨nc.1, p ++ "/" ++ nc.1, recursive_size nc.2⟩)

/-! ## Example file systems -/

/-- The directory `/tmp/t` with a subdirectory `a` holding one file of 2048 bytes, a
subdirectory `b` holding one file of 1024 bytes, and a file `c` of 512 bytes. -/
def fsDemo : FS where
  dirs := fun p =>
    if p = "/tmp/t" then some [".", "..", "c", "b", "a"]
    else if p = "/tmp/t/a" then some [".", "..", "x"]
    else if p = "/tmp/t/b" then some [".", "..", "y"]
    else none
  inodes := fun p =>
    if p = "/tmp/t" then some ⟨FileType.dir, 4096⟩
    else if p = "/tmp/t/a" then some ⟨FileType.dir, 4096⟩
    else if p = "/tmp/t/b" then some ⟨FileType.dir, 4096⟩
    else if p = "/tmp/t/c" then some ⟨FileType.reg, 512⟩
    else if p = "/tmp/t/a/x" then some ⟨FileType.reg, 2048⟩
    else if p = "/tmp/t/b/y" then some ⟨FileType.reg, 1024⟩
    else none
  canon := fun p => some p

/-- The view of `/tmp/t` in `fsDemo`. -/
def viewDemo : DirView :=
  ⟨some "/tmp/t", [⟨"a", "/tmp/t/a", 2048⟩, ⟨"b", "/tmp/t/b", 1024⟩], 3584⟩

/-- The directory `/srv` holds only `data`, a symbolic link to the directory `/big`,
which holds a file of 1000000 bytes. -/
def fsLink : FS where
  dirs := fun p =>
    if p = "/srv" then some [".", "..", "data"]
    else if p = "/srv/data" then some [".", "..", "blob"]
    else if p = "/big" then some [".", "..", "blob"]
    else none
  inodes := fun p =>
    if p = "/srv" then some ⟨FileType.dir, 4096⟩
    else if p = "/srv/data" then some ⟨FileType.lnk, 4⟩
    else if p = "/big" then some ⟨FileType.dir, 4096⟩
    else if p = "/big/blob" then some ⟨FileType.reg, 1000000⟩
    else if p = "/srv/data/blob" then some ⟨FileType.reg, 1000000⟩
    else none
  canon := fun p =>
    if p = "/srv/data" then some "/big"
    else if p = "/srv/data/blob" then some "/big/blob"
    else some p

/-- The directory `/home` holds a file `notes` of 100 bytes and a subdirectory `u`,
which holds a file `f` of 7 bytes and a subdirectory `secret` that cannot be opened. -/
def fsDenied : FS where
  dirs := fun p =>
    if p = "/home" then some [".", "..", "u", "notes"]
    else if p = "/home/u" then some [".", "..", "secret", "f"]
    else none
  inodes := fun p =>
    if p = "/home" then some ⟨FileType.dir, 4096⟩
    else if p = "/home/u" then some ⟨FileType.dir, 4096⟩
    else if p = "/home/u/secret" then some ⟨FileType.dir, 4096⟩
    else if p = "/home/u/f" then some ⟨FileType.reg, 7⟩
    else if p = "/home/notes" then some ⟨FileType.reg, 100⟩
    else none
  canon := fun p => some p

/-- The file system `fs` with the directory at `d` replaced by an empty readable
directory. -/
def FS.blank (fs : FS) (d : String) : FS :=
  { fs with dirs := fun q => if q = d then some [".", ".."] else fs.dirs q }

/-- The tree held by `fsDemo` at `/tmp/t`. -/
def treeDemo : List (String × Node) :=
  [("c", Node.reg 512), ("b", Node.dir true [("y", Node.reg 1024)]),
   ("a", Node.dir true [("x", Node.reg 2048)])]

/-- A name of `k` characters. -/
def longName (k : Nat) : String := ⟨List.replicate k 'd'⟩

/-- An absolute path of 15 components of 255 characters each, 3840 characters in all. -/
def deepPath : String := ⟨(List.replicate 15 ('/' :: List.replicate 255 'd')).flatten⟩

/-- The directory `deepPath` holds a subdirectory `sub`, which holds one file of 1000
bytes whose name has 255 characters.  The path of `sub` has 3844 characters, the path
of the file 4100. -/
def fsDeep : FS where
  dirs := fun p =>
    if p = deepPath then some [".", "..", "sub"]
    else if p = deepPath ++ "/sub" then some [".", "..", longName 255]
    else none
  inodes := fun p =>
    if p = deepPath then some ⟨FileType.dir, 4096⟩
    else if p = deepPath ++ "/sub" then some ⟨FileType.dir, 4096⟩
    else if p = deepPath ++ "/sub/" ++ longName 255 then some ⟨FileType.reg, 1000⟩
    else none
  canon := fun p => some p

/-- The tree held by `fsDeep` at `deepPath`. -/
def treeDeep : List (String × Node) :=
  [("sub", Node.dir true [(longName 255, Node.reg 1000)])]

/-- Whether the path `p` ends with the characters of `suffix`. -/
def endsWith (p suffix : String) : Bool := suffix.data.isSuffixOf p.data

/-- The directory `/t` holds a subdirectory `a`, which holds a file `f` of 10 bytes
and `loop`, a symbolic link to `/t`.  Paths are resolved through the link, so that
`/t/a/loop/a/loop/a` names the directory `a` again, at any number of turns. -/
def fsCycle : FS where
  dirs := fun p =>
    if p = "/t" ∨ endsWith p "/loop" then some [".", "..", "a"]
    else if endsWith p "/a" then some [".", "..", "loop", "f"]
    else none
  inodes := fun p =>
    if p = "/t" then some ⟨FileType.dir, 4096⟩
    else if endsWith p "/loop" then some ⟨FileType.lnk, 2⟩
    else if endsWith p "/a" then some ⟨FileType.dir, 4096⟩
    else if endsWith p "/f" then some ⟨FileType.reg, 10⟩
    else none
  canon := fun p => some p

/-- The tree held by `fsCycle` at `/t`, the link being a leaf. -/
def treeCycle : Node :=
  Node.dir true [("a", Node.dir true [("loop", Node.lnk), ("f", Node.reg 10)])]

/-- The directory `/data` holds the 18 empty subdirectories `d0`, ..., `d17`. -/
def fsMany : FS where
  dirs := fun p =>
    if p = "/data" then some (".." :: "." :: (List.range 18).map (fun i => "d" ++ Nat.repr i))
    else if "/data/d".data.isPrefixOf p.data then some [".", ".."]
    else none
  inodes := fun p =>
    if p = "/data" ∨ "/data/d".data.isPrefixOf p.data then some ⟨FileType.dir, 4096⟩
    else none
  canon := fun p => some p

/-- The directory `/w` holds the four empty subdirectories `a`, `b`, `c` and `d`. -/
def fsFour : FS where
  dirs := fun p =>
    if p = "/w" then some [".", "..", "a", "b", "c", "d"]
    else if p = "/w/a" ∨ p = "/w/b" ∨ p = "/w/c" ∨ p = "/w/d" then some [".", ".."]
    else none
  inodes := fun p =>
    if p = "/w" ∨ p = "/w/a" ∨ p = "/w/b" ∨ p = "/w/c" ∨ p = "/w/d" then
      some ⟨FileType.dir, 4096⟩
    else none
  canon := fun p => some p

/-- The file system `fsFour` after `a`, `b` and `c` were removed and `d` was made
unreadable. -/
def fsShrunk : FS where
  dirs := fun p => if p = "/w" then some [".", "..", "d"] else none
  inodes := fun p => if p = "/w" ∨ p = "/w/d" then some ⟨FileType.dir, 4096⟩ else none
  canon := fun p => some p

/-- The view of `/w` in `fsFour`. -/
def viewFour : DirView :=
  ⟨some "/w", [⟨"a", "/w/a", 0⟩, ⟨"b", "/w/b", 0⟩, ⟨"c", "/w/c", 0⟩, ⟨"d", "/w/d", 0⟩], 0⟩

/-- A state of the session on `/w` of `fsFour`, the third entry selected. -/
def uiFour : UI := ⟨"/w", some viewFour, 2, 0⟩

/-- The file system `fsFour` after every directory was made unreadable: paths still
resolve and metadata can still be read, no directory can be opened. -/
def fsLocked : FS where
  dirs := fun _ => none
  inodes := fun p =>
    if p = "/" ∨ p = "/w" ∨ p = "/w/a" ∨ p = "/w/b" ∨ p = "/w/c" ∨ p = "/w/d" then
      some ⟨FileType.dir, 4096⟩
    else none
  canon := fun p => some p

/-- The window the controller keeps the selection in: `scroll_offset` is not negative
and the selection lies in the `rows - 5` rows that start at `scroll_offset`. -/
def window_inv (rows : Int) (st : UI) : Prop :=
  0 ≤ st.scroll_offset ∧ st.scroll_offset ≤ st.selected ∧
    st.selected < st.scroll_offset + (rows - 5)

/-- The file system `fsDemo` with every directory enumerated in another order. -/
def fsDemoShuffled : FS where
  dirs := fun p =>
    if p = "/tmp/t" then some ["a", "..", "b", ".", "c"]
    else if p = "/tmp/t/a" then some ["x", ".", ".."]
    else if p = "/tmp/t/b" then some ["..", "y", "."]
    else none
  inodes := fsDemo.inodes
  canon := fsDemo.canon

/-- The root directory holds the subdirectory `usr`, which holds the empty
subdirectory `bin`; a path with a doubled leading separator names the same object. -/
def fsRoot : FS where
  dirs := fun p =>
    if p = "/" then some [".", "..", "usr"]
    else if p = "/usr" ∨ p = "//usr" then some [".", "..", "bin"]
    else if p = "/usr/bin" ∨ p = "//usr/bin" then some [".", ".."]
    else none
  inodes := fun p =>
    if p = "/" ∨ p = "/usr" ∨ p = "//usr" ∨ p = "/usr/bin" ∨ p = "//usr/bin" then
      some ⟨FileType.dir, 4096⟩
    else none
  canon := fun p =>
    if p = "//usr" then some "/usr"
    else if p = "//usr/bin" then some "/usr/bin"
    else some p

/-- The view of `/usr` in `fsRoot`. -/
def viewUsr : DirView := ⟨some "/usr", [⟨"bin", "/usr/bin", 0⟩], 0⟩

/-- The view of `/` in `fsRoot`. -/
def viewRoot : DirView := ⟨some "/", [⟨"usr", "//usr", 0⟩], 0⟩

/-- The directory `/vault` holds the subdirectory `big`, which holds the subdirectories
`a` and `b`, each with one sparse file `x` of `2 ^ 62` bytes. -/
def fsVault : FS where
  dirs := fun p =>
    if p = "/vault" then some [".", "..", "big"]
    else if p = "/vault/big" then some [".", "..", "a", "b"]
    else if p = "/vault/big/a" ∨ p = "/vault/big/b" then some [".", "..", "x"]
    else none
  inodes := fun p =>
    if p = "/vault" ∨ p = "/vault/big" ∨ p = "/vault/big/a" ∨ p = "/vault/big/b" then
      some ⟨FileType.dir, 4096⟩
    else if p = "/vault/big/a/x" ∨ p = "/vault/big/b/x" then
      some ⟨FileType.reg, 4611686018427387904⟩
    else none
  canon := fun p => some p

/-- The tree held by `fsVault` at `/vault`. -/
def treeVault : List (String × Node) :=
  [("big", Node.dir true
    [("a", Node.dir true [("x", Node.reg 4611686018427387904)]),
     ("b", Node.dir true [("x", Node.reg 4611686018427387904)])])]

/-! # Properties -/

/-! ## Arithmetic of `off_t` -/

theorem off_t_wrap_of_range (x : Int) (h1 : -9223372036854775808 ≤ x)
    (h2 : x < 9223372036854775808) : off_t_wrap x = x := by
  unfold off_t_wrap
  omega

theorem off_t_wrap_range (x : Int) :
    -9223372036854775808 ≤ off_t_wrap x ∧ off_t_wrap x < 9223372036854775808 := by
  unfold off_t_wrap
  omega

theorem off_t_wrap_wrap (x : Int) : off_t_wrap (off_t_wrap x) = off_t_wrap x := by
  unfold off_t_wrap
  omega

theorem off_t_wrap_add_left (a b : Int) :
    off_t_wrap (off_t_wrap a + b) = off_t_wrap (a + b) := by
  unfold off_t_wrap
  omega

theorem off_t_wrap_add_right (a b : Int) :
    off_t_wrap (a + off_t_wrap b) = off_t_wrap (a + b) := by
  unfold off_t_wrap
  omega

theorem off_t_wrap_zero : off_t_wrap 0 = 0 := by decide

/-! ## Strings -/

theorem char_toNat_ne {a b : Char} (h : a ≠ b) : a.toNat ≠ b.toNat := by
  intro hab
  apply h
  apply Char.ext
  apply UInt32.ext
  exact hab

theorem strcmpAux_le_iff (a b : List Char) : strcmpAux a b ≤ 0 ↔ lex_le a b := by
  induction a generalizing b with
  | nil => cases b <;> simp [strcmpAux, lex_le]
  | cons x xs ih =>
    cases b with
    | nil => simp [strcmpAux, lex_le]
    | cons y ys =>
      simp only [strcmpAux, lex_le]
      by_cases hxy : x = y
      · subst hxy
        simp [ih]
      · have := char_toNat_ne hxy
        simp only [hxy, if_false, false_and, or_false]
        split <;> simp_all

theorem strcmpAux_eq_zero_iff (a b : List Char) : strcmpAux a b = 0 ↔ a = b := by
  induction a generalizing b with
  | nil => cases b <;> simp [strcmpAux]
  | cons x xs ih =>
    cases b with
    | nil => simp [strcmpAux]
    | cons y ys =>
      simp only [strcmpAux]
      by_cases hxy : x = y
      · subst hxy
        simp [ih]
      · simp only [hxy, if_false, List.cons.injEq, false_and, iff_false]
        split <;> simp

theorem strcmp_eq_zero_iff (a b : String) : strcmp a b = 0 ↔ a = b := by
  unfold strcmp
  rw [strcmpAux_eq_zero_iff]
  constructor
  · intro h
    exact String.ext h
  · intro h
    rw [h]

theorem strcmpAux_total (a b : List Char) : strcmpAux a b ≤ 0 ∨ strcmpAux b a ≤ 0 := by
  induction a generalizing b with
  | nil => cases b <;> simp [strcmpAux]
  | cons x xs ih =>
    cases b with
    | nil => simp [strcmpAux]
    | cons y ys =>
      simp only [strcmpAux]
      by_cases hxy : x = y
      · subst hxy
        simpa using ih ys
      · have := char_toNat_ne hxy
        have hyx : ¬ y = x := fun h => hxy h.symm
        simp only [hxy, hyx, if_false]
        by_cases hlt : x.toNat < y.toNat
        · simp [hlt]
        · have : y.toNat < x.toNat := by omega
          simp [this]

/-! ## Sorting -/

theorem compare_entries_desc_total (a b : DirEntry) :
    compare_entries_desc a b ≤ 0 ∨ compare_entries_desc b a ≤ 0 := by
  unfold compare_entries_desc
  by_cases h1 : a.size < b.size
  · have h2 : ¬ b.size < a.size := by omega
    right
    simp [h1, h2]
  · by_cases h2 : b.size < a.size
    · left
      simp [h1, h2]
    · simp only [h1, h2, if_false, gt_iff_lt]
      exact strcmpAux_total _ _

theorem compare_entries_desc_le_iff (a b : DirEntry) :
    compare_entries_desc a b ≤ 0 ↔
      b.size < a.size ∨ (a.size = b.size ∧ lex_le a.name.data b.name.data) := by
  unfold compare_entries_desc
  by_cases h1 : a.size < b.size
  · simp only [h1, if_true]
    constructor
    · intro h
      omega
    · intro h
      omega
  · by_cases h2 : b.size < a.size
    · simp [h1, h2]
    · have h3 : a.size = b.size := by omega
      simp only [h1, h2, if_false, gt_iff_lt, h3, true_and, false_or, lt_self_iff_false]
      exact strcmpAux_le_iff _ _

theorem qsortInsert_perm {α : Type} (cmp : α → α → Int) (x : α) (l : List α) :
    (qsortInsert cmp x l).Perm (x :: l) := by
  induction l with
  | nil => simp [qsortInsert]
  | cons y ys ih =>
    simp only [qsortInsert]
    split
    · exact List.Perm.refl _
    · exact (List.Perm.cons y ih).trans (List.Perm.swap x y ys)

theorem qsort_perm {α : Type} (cmp : α → α → Int) (l : List α) : (qsort cmp l).Perm l := by
  induction l with
  | nil => simp [qsort]
  | cons x xs ih =>
    simp only [qsort]
    exact (qsortInsert_perm cmp x _).trans (List.Perm.cons x ih)

theorem qsortInsert_chain {α : Type} (cmp : α → α → Int)
    (total : ∀ a b, cmp a b ≤ 0 ∨ cmp b a ≤ 0) (x : α) (l : List α)
    (hl : List.Chain' (fun a b => cmp a b ≤ 0) l) :
    List.Chain' (fun a b => cmp a b ≤ 0) (qsortInsert cmp x l) := by
  induction l with
  | nil => simp [qsortInsert]
  | cons y ys ih =>
    simp only [qsortInsert]
    split
    · rename_i hxy
      exact List.Chain'.cons hxy hl
    · rename_i hxy
      have hyx : cmp y x ≤ 0 := (total x y).resolve_left hxy
      have htail := ih (List.Chain'.tail hl)
      cases ys with
      | nil =>
        simp only [qsortInsert] at htail ⊢
        exact List.Chain'.cons hyx htail
      | cons z zs =>
        simp only [qsortInsert] at htail ⊢
        split
        · rename_i hxz
          simp only [hxz, if_true] at htail
          exact List.Chain'.cons hyx htail
        · rename_i hxz
          simp only [hxz, if_false] at htail
          have hyz : cmp y z ≤ 0 := (List.chain'_cons.mp hl).1
          exact List.Chain'.cons hyz htail

theorem qsort_chain {α : Type} (cmp : α → α → Int)
    (total : ∀ a b, cmp a b ≤ 0 ∨ cmp b a ≤ 0) (l : List α) :
    List.Chain' (fun a b => cmp a b ≤ 0) (qsort cmp l) := by
  induction l with
  | nil => simp [qsort]
  | cons x xs ih =>
    simp only [qsort]
    exact qsortInsert_chain cmp total x _ ih

/-! ## The loop of `scan_directory` -/

theorem expected_entries_single_true (fs : FS) (path n : String)
    (h : is_real_subdir fs path n = true) :
    expected_entries fs path [n] =
      [⟨n, path ++ "/" ++ n, dir_size_recursive fs (path ++ "/" ++ n)⟩] := by
  simp [expected_entries, List.filter_cons, h]

theorem expected_entries_single_false (fs : FS) (path n : String)
    (h : is_real_subdir fs path n = false) :
    expected_entries fs path [n] = [] := by
  simp [expected_entries, List.filter_cons, h]

theorem expected_entries_cons (fs : FS) (path : String) (n : String) (names : List String) :
    expected_entries fs path (n :: names) =
      expected_entries fs path [n] ++ expected_entries fs path names := by
  unfold expected_entries
  by_cases h : is_real_subdir fs path n = true
  · simp [List.filter_cons, h]
  · simp [List.filter_cons, h]

theorem lstat_long (fs : FS) (p : String) (h : PATH_MAX ≤ p.length) : lstat fs p = none := by
  simp [lstat, h]

/-- What one directory entry is to the scan: skipped, a regular file, or a subdirectory. -/
theorem entry_cases (fs : FS) (path n : String) :
    (is_real_subdir fs path n = false ∧ direct_file_size fs path n = 0 ∧
      ((n = "." ∨ n = "..") ∨ PATH_MAX ≤ (path ++ "/" ++ n).length ∨
        lstat fs (path ++ "/" ++ n) = none ∨
        ∃ st, lstat fs (path ++ "/" ++ n) = some st ∧ st.st_mode ≠ FileType.dir ∧
          st.st_mode ≠ FileType.reg)) ∨
    (is_real_subdir fs path n = false ∧ ¬ (n = "." ∨ n = "..") ∧
      ¬ PATH_MAX ≤ (path ++ "/" ++ n).length ∧
      ∃ st, lstat fs (path ++ "/" ++ n) = some st ∧ st.st_mode = FileType.reg ∧
        direct_file_size fs path n = st.st_size) ∨
    (is_real_subdir fs path n = true ∧ direct_file_size fs path n = 0 ∧
      ¬ (n = "." ∨ n = "..") ∧ ¬ PATH_MAX ≤ (path ++ "/" ++ n).length ∧
      ∃ st, lstat fs (path ++ "/" ++ n) = some st ∧ st.st_mode = FileType.dir) := by
  by_cases hdot : n = "." ∨ n = ".."
  · left
    refine ⟨?_, ?_, Or.inl hdot⟩
    · simp only [is_real_subdir, decide_eq_false_iff_not]
      intro hc
      rcases hdot with hd | hd
      · exact hc.1 hd
      · exact hc.2.1 hd
    · simp [direct_file_size, hdot]
  · have hnd : n ≠ "." ∧ n ≠ ".." := ⟨fun hc => hdot (Or.inl hc), fun hc => hdot (Or.inr hc)⟩
    by_cases hlong : PATH_MAX ≤ (path ++ "/" ++ n).length
    · left
      have hl := lstat_long fs _ hlong
      refine ⟨?_, ?_, Or.inr (Or.inl hlong)⟩
      · simp [is_real_subdir, hl]
      · simp [direct_file_size, hl]
    · cases hst : lstat fs (path ++ "/" ++ n) with
      | none =>
        left
        refine ⟨?_, ?_, Or.inr (Or.inr (Or.inl rfl))⟩
        · simp [is_real_subdir, hst]
        · simp [direct_file_size, hst]
      | some st =>
        by_cases hdir : st.st_mode = FileType.dir
        · right
          right
          refine ⟨?_, ?_, hdot, hlong, st, rfl, hdir⟩
          · simp [is_real_subdir, hst, hdir, hnd]
          · simp [direct_file_size, hst, hdir]
        · by_cases hreg : st.st_mode = FileType.reg
          · right
            left
            refine ⟨?_, hdot, hlong, st, rfl, hreg, ?_⟩
            · simp [is_real_subdir, hst, hdir]
            · simp [direct_file_size, hst, hreg, hdot]
          · left
            refine ⟨?_, ?_, Or.inr (Or.inr (Or.inr ⟨st, rfl, hdir, hreg⟩))⟩
            · simp [is_real_subdir, hst, hdir]
            · simp [direct_file_size, hst, hreg]

/-- The loop body of `scan_directory` leaves the state alone on a skipped entry. -/
theorem scan_entry_skip (fs : FS) (mem : Mem) (path : String) (s : ScanLoop) (n : String)
    (h : (n = "." ∨ n = "..") ∨ PATH_MAX ≤ (path ++ "/" ++ n).length ∨
        lstat fs (path ++ "/" ++ n) = none ∨
        ∃ st, lstat fs (path ++ "/" ++ n) = some st ∧ st.st_mode ≠ FileType.dir ∧
          st.st_mode ≠ FileType.reg) :
    scan_entry fs mem path s n = some s := by
  unfold scan_entry
  simp only [strcmp_eq_zero_iff]
  rcases h with h | h | h | ⟨st, h, hd, hr⟩
  · simp [h]
  · simp [h, -String.length_append]
  · simp [h]
  · simp [h, hd, hr]

/-- The loop body of `scan_directory` on a regular file. -/
theorem scan_entry_reg (fs : FS) (mem : Mem) (path : String) (s : ScanLoop) (n : String)
    (st : Stat) (hdot : ¬ (n = "." ∨ n = ".."))
    (hlong : ¬ PATH_MAX ≤ (path ++ "/" ++ n).length)
    (hst : lstat fs (path ++ "/" ++ n) = some st) (hreg : st.st_mode = FileType.reg) :
    scan_entry fs mem path s n = some { s with total := off_t_add s.total st.st_size } := by
  unfold scan_entry
  simp only [strcmp_eq_zero_iff]
  simp [hdot, hlong, hst, hreg, -String.length_append]

/-- The loop body of `scan_directory` on a subdirectory, when it returns a state. -/
theorem scan_entry_dir (fs : FS) (mem : Mem) (path : String) (s s1 : ScanLoop) (n : String)
    (st : Stat) (hdot : ¬ (n = "." ∨ n = ".."))
    (hlong : ¬ PATH_MAX ≤ (path ++ "/" ++ n).length)
    (hst : lstat fs (path ++ "/" ++ n) = some st) (hdir : st.st_mode = FileType.dir)
    (h : scan_entry fs mem path s n = some s1) :
    s1.entries = s.entries ++
        [⟨n, path ++ "/" ++ n, dir_size_recursive fs (path ++ "/" ++ n)⟩] ∧
    s1.total = off_t_add s.total (dir_size_recursive fs (path ++ "/" ++ n)) := by
  unfold scan_entry at h
  simp only [strcmp_eq_zero_iff] at h
  simp only [hdot, hlong, hst, hdir, if_false, if_true] at h
  have hne : FileType.dir ≠ FileType.lnk := by decide
  simp only [hne, if_false] at h
  split at h
  · split at h
    · split at h
      · simp only [Option.some.injEq] at h
        subst h
        simp
      · exact absurd h (by simp)
    · exact absurd h (by simp)
  · split at h
    · simp only [Option.some.injEq] at h
      subst h
      simp
    · exact absurd h (by simp)

theorem scan_entry_spec (fs : FS) (mem : Mem) (path : String) (s s1 : ScanLoop) (n : String)
    (hs : off_t_wrap s.total = s.total)
    (h : scan_entry fs mem path s n = some s1) :
    s1.entries = s.entries ++ expected_entries fs path [n] ∧
    s1.total = off_t_wrap (s.total + direct_file_size fs path n +
      ((expected_entries fs path [n]).map DirEntry.size).sum) := by
  rcases entry_cases fs path n with ⟨hsub, hfile, hskip⟩ | ⟨hsub, hdot, hlong, st, hst, hreg, hfile⟩ |
    ⟨hsub, hfile, hdot, hlong, st, hst, hdir⟩
  · rw [scan_entry_skip fs mem path s n hskip] at h
    simp only [Option.some.injEq] at h
    subst h
    simp [expected_entries_single_false fs path n hsub, hfile, hs]
  · rw [scan_entry_reg fs mem path s n st hdot hlong hst hreg] at h
    simp only [Option.some.injEq] at h
    subst h
    simp [expected_entries_single_false fs path n hsub, hfile, off_t_add]
  · have key := scan_entry_dir fs mem path s s1 n st hdot hlong hst hdir h
    simp [expected_entries_single_true fs path n hsub, hfile, key.1, key.2, off_t_add]

theorem scan_loop_spec (fs : FS) (mem : Mem) (path : String) (names : List String)
    (s s1 : ScanLoop) (hs : off_t_wrap s.total = s.total)
    (h : names.foldlM (scan_entry fs mem path) s = some s1) :
    s1.entries = s.entries ++ expected_entries fs path names ∧
    s1.total = off_t_wrap (s.total + direct_file_bytes fs path names +
      ((expected_entries fs path names).map DirEntry.size).sum) := by
  induction names generalizing s with
  | nil =>
    simp only [List.foldlM_nil, pure, Option.some.injEq] at h
    subst h
    simp [expected_entries, direct_file_bytes, hs]
  | cons n names ih =>
    rw [List.foldlM_cons] at h
    cases hstep : scan_entry fs mem path s n with
    | none => simp [hstep] at h
    | some s2 =>
      simp only [hstep, Option.some_bind] at h
      have h1 := scan_entry_spec fs mem path s s2 n hs hstep
      have hs2 : off_t_wrap s2.total = s2.total := by
        rw [h1.2, off_t_wrap_wrap]
      have h2 := ih s2 hs2 h
      rw [expected_entries_cons fs path n names]
      constructor
      · rw [h2.1, h1.1, List.append_assoc]
      · rw [h2.2, h1.2, Int.add_assoc, off_t_wrap_add_left]
        congr 1
        simp only [direct_file_bytes, List.map_cons, List.sum_cons, List.map_append,
          List.sum_append]
        push_cast
        omega

/-! ## The view returned by `scan_directory` -/

/-- A successful scan opened the directory, and its view holds the expected entries,
sorted, with the total the loop accumulated. -/
theorem scan_directory_spec (fs : FS) (mem : Mem) (path : String) (v : DirView)
    (h : scan_directory fs mem path = some v) :
    ∃ names, opendir fs path = some names ∧
      v.entries = qsort compare_entries_desc (expected_entries fs path names) ∧
      v.total_size = off_t_wrap (direct_file_bytes fs path names +
        ((expected_entries fs path names).map DirEntry.size).sum) := by
  unfold scan_directory at h
  cases hop : opendir fs path with
  | none => simp [hop] at h
  | some names =>
    simp only [hop] at h
    cases hloop : names.foldlM (scan_entry fs mem path) ⟨[], 0, 0, 0⟩ with
    | none => simp [hloop] at h
    | some s =>
      simp only [hloop] at h
      have hs := scan_loop_spec fs mem path names _ s off_t_wrap_zero hloop
      simp only [List.nil_append, Int.zero_add] at hs
      split at h
      · simp only [Option.some.injEq] at h
        subst h
        refine ⟨names, rfl, ?_, hs.2⟩
        simp only
        split
        · rw [hs.1]
        · rename_i hlen
          have hnil : s.entries = [] := by
            cases hse : s.entries with
            | nil => rfl
            | cons a l => simp [hse] at hlen
          rw [← hs.1, hnil]
          rfl
      · exact absurd h (by simp)

theorem scan_directory_perm (fs : FS) (mem : Mem) (path : String) (v : DirView)
    (names : List String) (h : scan_directory fs mem path = some v)
    (hop : opendir fs path = some names) :
    v.entries.Perm (expected_entries fs path names) := by
  obtain ⟨names1, hop1, hent, _⟩ := scan_directory_spec fs mem path v h
  rw [hop] at hop1
  simp only [Option.some.injEq] at hop1
  subst hop1
  rw [hent]
  exact qsort_perm _ _

/-- C1: the entries of a view returned by `scan_directory` are in descending order of
size, and entries of equal size in ascending byte-wise lexicographic order of name. -/
theorem scan_directory_sorted (fs : FS) (mem : Mem) (path : String) (v : DirView)
    (h : scan_directory fs mem path = some v) (i : Nat) (hi : i + 1 < v.entries.length) :
    v.entries[i + 1].size ≤ v.entries[i].size ∧
    (v.entries[i].size = v.entries[i + 1].size →
      lex_le v.entries[i].name.data v.entries[i + 1].name.data) := by
  obtain ⟨names, _, hent, _⟩ := scan_directory_spec fs mem path v h
  have hchain : List.Chain' (fun a b => compare_entries_desc a b ≤ 0) v.entries := by
    rw [hent]
    exact qsort_chain _ compare_entries_desc_total _
  have hrel := (List.chain'_iff_get.mp hchain) i (by omega)
  simp only [List.get_eq_getElem] at hrel
  rw [compare_entries_desc_le_iff] at hrel
  rcases hrel with hlt | ⟨heq, hlex⟩
  · exact ⟨by omega, fun he => by omega⟩
  · exact ⟨by omega, fun _ => hlex⟩

theorem scan_directory_sorted_witness :
    scan_directory fsDemo Mem.ok "/tmp/t" = some viewDemo ∧
    (viewDemo.entries[0 + 1].size ≤ viewDemo.entries[0].size ∧
    (viewDemo.entries[0].size = viewDemo.entries[0 + 1].size →
      lex_le viewDemo.entries[0].name.data viewDemo.entries[0 + 1].name.data)) :=
  ⟨by decide, scan_directory_sorted fsDemo Mem.ok "/tmp/t" viewDemo (by decide) 0 (by decide)⟩

theorem direct_file_bytes_short (fs : FS) (path : String) (names : List String)
    (hshort : ∀ n ∈ names, (path ++ "/" ++ n).length < PATH_MAX) :
    direct_file_bytes fs path names = present_file_bytes fs path names := by
  unfold direct_file_bytes present_file_bytes
  congr 1
  apply List.map_congr_left
  intro n hn
  have hlong : ¬ PATH_MAX ≤ (path ++ "/" ++ n).length := by
    have := hshort n hn
    omega
  unfold direct_file_size present_file_size
  rw [lstat, if_neg hlong]

/-- C2, as stated, fails.  In `fsDeep` the scan of `sub` returns total size 0 and no
entries, while `sub` holds a regular file of 1000 bytes, whose composed path has 4100
characters.  In `fsVault` the scan of `big` lists two entries of `2 ^ 62` bytes and
returns the total size `-2 ^ 63`: the `off_t` addition wrapped around. -/
theorem scan_directory_total_size_counterexample :
    (scan_directory fsDeep Mem.ok (deepPath ++ "/sub") =
        some ⟨some (deepPath ++ "/sub"), [], 0⟩ ∧
      opendir fsDeep (deepPath ++ "/sub") = some [".", "..", longName 255] ∧
      present_file_bytes fsDeep (deepPath ++ "/sub") [".", "..", longName 255] = 1000) ∧
    (scan_directory fsVault Mem.ok "/vault/big" =
        some ⟨some "/vault/big",
          [⟨"a", "/vault/big/a", 4611686018427387904⟩,
           ⟨"b", "/vault/big/b", 4611686018427387904⟩], -9223372036854775808⟩ ∧
      opendir fsVault "/vault/big" = some [".", "..", "a", "b"] ∧
      present_file_bytes fsVault "/vault/big" [".", "..", "a", "b"] = 0 ∧
      (([⟨"a", "/vault/big/a", 4611686018427387904⟩,
         ⟨"b", "/vault/big/b", 4611686018427387904⟩] : List DirEntry).map
        DirEntry.size).sum = 9223372036854775808) :=
  ⟨⟨by decide!, by decide!, by decide!⟩, ⟨by decide, by decide, by decide, by decide⟩⟩

/-- C2, amended: the total size of a view is, reduced to the range of `off_t`, the sum
of the byte lengths of the regular files `lstat` reports directly inside the scanned
directory plus the sum of the sizes of the listed entries; when every path composed
for a child is shorter than `PATH_MAX` and the sum lies in the range of `off_t`, it is
the sum of the byte lengths of the regular files directly inside the scanned directory
plus the sum of the sizes of the listed entries. -/
theorem scan_directory_total_size (fs : FS) (mem : Mem) (path : String) (v : DirView)
    (names : List String) (h : scan_directory fs mem path = some v)
    (hop : opendir fs path = some names) :
    v.total_size =
      off_t_wrap (direct_file_bytes fs path names + (v.entries.map DirEntry.size).sum) ∧
    ((∀ n ∈ names, (path ++ "/" ++ n).length < PATH_MAX) →
      -9223372036854775808 ≤
        (present_file_bytes fs path names : Int) + (v.entries.map DirEntry.size).sum →
      (present_file_bytes fs path names : Int) + (v.entries.map DirEntry.size).sum <
        9223372036854775808 →
      v.total_size =
        present_file_bytes fs path names + (v.entries.map DirEntry.size).sum) := by
  obtain ⟨names1, hop1, hent, htot⟩ := scan_directory_spec fs mem path v h
  rw [hop] at hop1
  simp only [Option.some.injEq] at hop1
  subst hop1
  have hsum : (v.entries.map DirEntry.size).sum =
      ((expected_entries fs path names).map DirEntry.size).sum := by
    rw [hent]
    exact ((qsort_perm _ _).map DirEntry.size).sum_eq
  have hgen : v.total_size =
      off_t_wrap (direct_file_bytes fs path names + (v.entries.map DirEntry.size).sum) := by
    rw [htot, hsum]
  refine ⟨hgen, ?_⟩
  intro hshort h1 h2
  rw [hgen, direct_file_bytes_short fs path names hshort]
  exact off_t_wrap_of_range _ h1 h2

theorem scan_directory_total_size_witness :
    scan_directory fsDemo Mem.ok "/tmp/t" = some viewDemo ∧
    opendir fsDemo "/tmp/t" = some [".", "..", "c", "b", "a"] ∧
    present_file_bytes fsDemo "/tmp/t" [".", "..", "c", "b", "a"] = 512 ∧
    viewDemo.total_size =
      present_file_bytes fsDemo "/tmp/t" [".", "..", "c", "b", "a"] +
        (viewDemo.entries.map DirEntry.size).sum :=
  ⟨by decide, by decide, by decide,
    (scan_directory_total_size fsDemo Mem.ok "/tmp/t" viewDemo _ (by decide) (by decide)).2
      (by decide) (by decide) (by decide)⟩

/-- C4: the listed entries are exactly the children of the scanned directory, other
than `.` and `..`, whose metadata `lstat` could read and that are real directories;
a directory whose children are all symbolic links has no entries and total size 0. -/
theorem scan_directory_entries (fs : FS) (mem : Mem) (path : String) (v : DirView)
    (names : List String) (h : scan_directory fs mem path = some v)
    (hop : opendir fs path = some names) :
    (v.entries.map DirEntry.name).Perm (names.filter (is_real_subdir fs path)) ∧
    (∀ n, (∃ e ∈ v.entries, e.name = n) ↔ (n ∈ names ∧ is_real_subdir fs path n = true)) ∧
    ((∀ n ∈ names, n = "." ∨ n = ".." ∨
        (lstat fs (path ++ "/" ++ n)).map Stat.st_mode = some FileType.lnk) →
      v.entries = [] ∧ v.total_size = 0) := by
  have hperm := scan_directory_perm fs mem path v names h hop
  have hnames : (v.entries.map DirEntry.name).Perm (names.filter (is_real_subdir fs path)) := by
    have h1 := hperm.map DirEntry.name
    have h2 : (expected_entries fs path names).map DirEntry.name =
        names.filter (is_real_subdir fs path) := by
      simp [expected_entries, Function.comp_def]
    rw [h2] at h1
    exact h1
  refine ⟨hnames, ?_, ?_⟩
  · intro n
    have hmem : n ∈ v.entries.map DirEntry.name ↔ n ∈ names.filter (is_real_subdir fs path) :=
      hnames.mem_iff
    rw [List.mem_filter] at hmem
    rw [← hmem, List.mem_map]
  · intro hlnk
    have hfilter : names.filter (is_real_subdir fs path) = [] := by
      rw [List.filter_eq_nil_iff]
      intro n hn
      simp only [is_real_subdir, decide_eq_true_eq]
      intro hc
      rcases hlnk n hn with hd | hd | hd
      · exact hc.1 hd
      · exact hc.2.1 hd
      · rw [hd] at hc
        exact absurd hc.2.2 (by decide)
    have hexp : expected_entries fs path names = [] := by
      simp [expected_entries, hfilter]
    have hent : v.entries = [] := by
      have := hperm
      rw [hexp] at this
      exact List.Perm.eq_nil this
    refine ⟨hent, ?_⟩
    obtain ⟨names1, hop1, _, htot⟩ := scan_directory_spec fs mem path v h
    rw [hop] at hop1
    simp only [Option.some.injEq] at hop1
    subst hop1
    rw [htot, hexp]
    suffices hz : direct_file_bytes fs path names = 0 by
      rw [hz]
      exact off_t_wrap_zero
    unfold direct_file_bytes
    apply List.sum_eq_zero
    intro x hx
    rw [List.mem_map] at hx
    obtain ⟨n, hn, rfl⟩ := hx
    unfold direct_file_size
    rcases hlnk n hn with hd | hd | hd
    · simp [hd]
    · simp [hd]
    · split
      · rfl
      · cases hst : lstat fs (path ++ "/" ++ n) with
        | none => rfl
        | some st =>
          rw [hst] at hd
          simp only [Option.map_some', Option.some.injEq] at hd
          simp [hd]

theorem scan_directory_entries_witness :
    scan_directory fsLink Mem.ok "/srv" = some ⟨some "/srv", [], 0⟩ ∧
    opendir fsLink "/srv" = some [".", "..", "data"] ∧
    dir_size_recursive fsLink "/big" = 1000000 ∧
    (∀ n ∈ [".", "..", "data"], n = "." ∨ n = ".." ∨
        (lstat fsLink ("/srv" ++ "/" ++ n)).map Stat.st_mode = some FileType.lnk) ∧
    ((⟨some "/srv", [], 0⟩ : DirView).entries = [] ∧
      (⟨some "/srv", [], 0⟩ : DirView).total_size = 0) :=
  ⟨by decide, by decide, by decide, by decide,
    (scan_directory_entries fsLink Mem.ok "/srv" ⟨some "/srv", [], 0⟩ [".", "..", "data"]
      (by decide) (by decide)).2.2 (by decide)⟩

/-! ## Failure of `scan_directory` -/

theorem scan_entry_none (fs : FS) (mem : Mem) (path : String) (s : ScanLoop) (n : String)
    (h : scan_entry fs mem path s n = none) : ∃ i, mem i = false := by
  rcases entry_cases fs path n with ⟨_, _, hskip⟩ | ⟨_, hdot, hlong, st, hst, hreg, _⟩ |
    ⟨_, _, hdot, hlong, st, hst, hdir⟩
  · rw [scan_entry_skip fs mem path s n hskip] at h
    exact absurd h (by simp)
  · rw [scan_entry_reg fs mem path s n st hdot hlong hst hreg] at h
    exact absurd h (by simp)
  · by_contra hall
    have hmem : ∀ i, mem i = true := by
      intro i
      cases hi : mem i with
      | true => rfl
      | false => exact absurd ⟨i, hi⟩ hall
    unfold scan_entry at h
    simp only [strcmp_eq_zero_iff] at h
    simp only [hdot, hlong, hst, hdir, hmem, if_false, if_true, Bool.and_self] at h
    have hne : FileType.dir ≠ FileType.lnk := by decide
    simp only [hne, if_false] at h
    split at h <;> exact absurd h (by simp)

theorem scan_loop_none (fs : FS) (mem : Mem) (path : String) (names : List String)
    (s : ScanLoop) (h : names.foldlM (scan_entry fs mem path) s = none) :
    ∃ i, mem i = false := by
  induction names generalizing s with
  | nil => simp [pure] at h
  | cons n names ih =>
    rw [List.foldlM_cons] at h
    cases hstep : scan_entry fs mem path s n with
    | none => exact scan_entry_none fs mem path s n hstep
    | some s2 =>
      simp only [hstep, Option.some_bind] at h
      exact ih s2 h

theorem scan_directory_none (fs : FS) (mem : Mem) (path : String)
    (h : scan_directory fs mem path = none) :
    opendir fs path = none ∨ ∃ i, mem i = false := by
  unfold scan_directory at h
  cases hop : opendir fs path with
  | none => exact Or.inl rfl
  | some names =>
    right
    simp only [hop] at h
    cases hloop : names.foldlM (scan_entry fs mem path) ⟨[], 0, 0, 0⟩ with
    | none => exact scan_loop_none fs mem path names _ hloop
    | some s =>
      simp only [hloop] at h
      by_cases hm : mem s.nalloc = true
      · simp [hm] at h
      · exact ⟨s.nalloc, by simpa using hm⟩

theorem scan_directory_isSome (fs : FS) (mem : Mem) (path : String)
    (hop : (opendir fs path).isSome = true) (hmem : ∀ i, mem i = true) :
    (scan_directory fs mem path).isSome = true := by
  cases h : scan_directory fs mem path with
  | some v => rfl
  | none =>
    rcases scan_directory_none fs mem path h with h1 | ⟨i, hi⟩
    · rw [h1] at hop
      exact absurd hop (by simp)
    · rw [hmem i] at hi
      exact absurd hi (by simp)

/-- C5, as stated, fails: the directory `/tmp/t` of `fsDemo` can be opened, and the scan
returns `NULL` when the first allocation fails. -/
theorem scan_directory_null_counterexample :
    ¬ (scan_directory fsDemo (fun _ => false) "/tmp/t" = none ↔
        opendir fsDemo "/tmp/t" = none) := by
  decide

/-- C5, amended: `scan_directory` returns `NULL` when the top-level path cannot be
opened, and otherwise only when a memory allocation fails; when the path can be opened
and every allocation succeeds it returns a view, whatever happens at nested levels. -/
theorem scan_directory_null (fs : FS) (mem : Mem) (path : String) :
    (opendir fs path = none → scan_directory fs mem path = none) ∧
    (scan_directory fs mem path = none → opendir fs path = none ∨ ∃ i, mem i = false) ∧
    ((opendir fs path).isSome = true → (∀ i, mem i = true) →
      (scan_directory fs mem path).isSome = true) := by
  refine ⟨?_, scan_directory_none fs mem path, scan_directory_isSome fs mem path⟩
  intro hop
  simp [scan_directory, hop]

/-! ## Unreadable nested directories -/

theorem lstat_blank (fs : FS) (d p : String) : lstat (fs.blank d) p = lstat fs p := rfl

theorem opendir_blank_ne (fs : FS) (d p : String) (h : p ≠ d) :
    opendir (fs.blank d) p = opendir fs p := by
  simp [opendir, FS.blank, h]

theorem dir_size_entry_dots (fs : FS) (recurse : String → Option Int) (path : String)
    (total : Int) :
    [".", ".."].foldlM (dir_size_entry fs recurse path) total = some total := by
  simp [dir_size_entry, strcmp_eq_zero_iff, pure]

theorem dir_size_fuel_blank (fs : FS) (d : String) (hd : opendir fs d = none) (fuel : Nat)
    (p : String) : dir_size_fuel (fs.blank d) fuel p = dir_size_fuel fs fuel p := by
  induction fuel generalizing p with
  | zero => rfl
  | succ fuel ih =>
    have hrec : dir_size_fuel (fs.blank d) fuel = dir_size_fuel fs fuel := funext ih
    have hbody : dir_size_entry (fs.blank d) (dir_size_fuel (fs.blank d) fuel) p =
        dir_size_entry fs (dir_size_fuel fs fuel) p := by
      rw [hrec]
      rfl
    by_cases hp : p = d
    · subst hp
      simp only [dir_size_fuel, hd]
      by_cases hlong : PATH_MAX ≤ p.length
      · simp [opendir, hlong]
      · have : opendir (fs.blank p) p = some [".", ".."] := by simp [opendir, FS.blank, hlong]
        rw [this]
        exact dir_size_entry_dots _ _ _ _
    · simp only [dir_size_fuel, opendir_blank_ne fs d p hp, hbody]

theorem scan_directory_blank (fs : FS) (d : String) (hd : opendir fs d = none) (mem : Mem)
    (path : String) (hne : d ≠ path) :
    scan_directory (fs.blank d) mem path = scan_directory fs mem path := by
  have hsize : dir_size_recursive (fs.blank d) = dir_size_recursive fs := by
    funext p
    simp [dir_size_recursive, dir_size_fuel_blank fs d hd]
  have hbody : scan_entry (fs.blank d) mem path = scan_entry fs mem path := by
    funext s n
    simp only [scan_entry, hsize, lstat_blank]
  simp only [scan_directory, opendir_blank_ne fs d path (Ne.symm hne), hbody]

/-- C6: a nested directory `d` that cannot be opened counts for 0, and the scan of any
other directory returns what it returns when `d` is an empty readable directory; the
scan returns a view whenever its own directory can be opened and allocation succeeds. -/
theorem scan_directory_unreadable (fs : FS) (d path : String) (hd : opendir fs d = none)
    (hne : d ≠ path) (hop : (opendir fs path).isSome = true) :
    dir_size_recursive fs d = 0 ∧
    (∀ mem, scan_directory fs mem path = scan_directory (fs.blank d) mem path) ∧
    (scan_directory fs Mem.ok path).isSome = true := by
  refine ⟨?_, ?_, ?_⟩
  · simp [dir_size_recursive, PATH_MAX, dir_size_fuel, hd]
  · intro mem
    exact (scan_directory_blank fs d hd mem path hne).symm
  · exact scan_directory_isSome fs Mem.ok path hop (fun _ => rfl)

theorem scan_directory_unreadable_witness :
    opendir fsDenied "/home/u/secret" = none ∧ "/home/u/secret" ≠ "/home" ∧
    (opendir fsDenied "/home").isSome = true ∧
    scan_directory fsDenied Mem.ok "/home" =
      some ⟨some "/home", [⟨"u", "/home/u", 7⟩], 107⟩ ∧
    (dir_size_recursive fsDenied "/home/u/secret" = 0 ∧
    (∀ mem, scan_directory fsDenied mem "/home" =
      scan_directory (fsDenied.blank "/home/u/secret") mem "/home") ∧
    (scan_directory fsDenied Mem.ok "/home").isSome = true) :=
  ⟨by decide, by decide, by decide, by decide,
    scan_directory_unreadable fsDenied "/home/u/secret" "/home" (by decide) (by decide)
      (by decide)⟩

/-! ## The recursion of `dir_size_recursive` on a file system tree -/

theorem opendir_long (fs : FS) (p : String) (h : PATH_MAX ≤ p.length) : opendir fs p = none := by
  simp [opendir, h]

theorem opendir_short (fs : FS) (p : String) (h : ¬ PATH_MAX ≤ p.length) :
    opendir fs p = fs.dirs p := by
  simp [opendir, h]

theorem lstat_short (fs : FS) (p : String) (h : ¬ PATH_MAX ≤ p.length) :
    lstat fs p = fs.inodes p := by
  simp [lstat, h]

theorem dir_size_entry_dot (fs : FS) (recurse : String → Option Int) (path : String)
    (total : Int) (n : String) (h : ¬ (n ≠ "." ∧ n ≠ "..")) :
    dir_size_entry fs recurse path total n = some total := by
  have : n = "." ∨ n = ".." := by
    by_cases h1 : n = "."
    · exact Or.inl h1
    · by_cases h2 : n = ".."
      · exact Or.inr h2
      · exact absurd ⟨h1, h2⟩ h
  simp [dir_size_entry, strcmp_eq_zero_iff, this]

theorem dir_size_loop_filter (fs : FS) (recurse : String → Option Int) (path : String)
    (names : List String) (total : Int) :
    names.foldlM (dir_size_entry fs recurse path) total =
      (names.filter (fun n => decide (n ≠ "." ∧ n ≠ ".."))).foldlM
        (dir_size_entry fs recurse path) total := by
  induction names generalizing total with
  | nil => rfl
  | cons n names ih =>
    by_cases hn : n ≠ "." ∧ n ≠ ".."
    · rw [List.filter_cons_of_pos (by simpa using hn), List.foldlM_cons, List.foldlM_cons]
      congr 1
      funext t
      exact ih t
    · rw [List.filter_cons_of_neg (by simpa using hn), List.foldlM_cons,
        dir_size_entry_dot fs recurse path total n hn]
      exact ih total

/-- The loop body of `dir_size_recursive` on a child that is not `.` or `..`, in terms
of the metadata of the child. -/
theorem dir_size_entry_child (fs : FS) (recurse : String → Option Int) (path : String)
    (total : Int) (n : String) (hn : n ≠ "." ∧ n ≠ "..")
    (hlong : ¬ PATH_MAX ≤ (path ++ "/" ++ n).length) :
    dir_size_entry fs recurse path total n =
      match fs.inodes (path ++ "/" ++ n) with
      | none => some total
      | some st =>
        if st.st_mode = FileType.lnk then some total
        else if st.st_mode = FileType.dir then
          (recurse (path ++ "/" ++ n)).map (fun sz => off_t_add total sz)
        else if st.st_mode = FileType.reg then some (off_t_add total st.st_size)
        else some total := by
  unfold dir_size_entry
  simp only [strcmp_eq_zero_iff, hn.1, hn.2, or_self, if_false, hlong]
  rw [lstat_short fs _ hlong]

theorem dir_size_entry_long (fs : FS) (recurse : String → Option Int) (path : String)
    (total : Int) (n : String) (hlong : PATH_MAX ≤ (path ++ "/" ++ n).length) :
    dir_size_entry fs recurse path total n = some total := by
  unfold dir_size_entry
  simp only [hlong, if_true]
  split <;> rfl

mutual
/-- On a tree, a call stack as deep as the tree is enough for `dir_size_recursive`, and
the value is the size of the part of the tree at paths shorter than `PATH_MAX`. -/
theorem dir_size_fuel_tree (fs : FS) : ∀ (t : Node) (p : String) (fuel : Nat),
    fs.isTree p t = true → t.isDir = true → t.depth ≤ fuel →
    dir_size_fuel fs fuel p = some (off_t_wrap (Node.visible_size p t))
  | Node.reg _, _, _, _, hd, _ => absurd hd (by simp [Node.isDir])
  | Node.lnk, _, _, _, hd, _ => absurd hd (by simp [Node.isDir])
  | Node.other, _, _, _, hd, _ => absurd hd (by simp [Node.isDir])
  | Node.nostat, _, _, _, hd, _ => absurd hd (by simp [Node.isDir])
  | Node.dir false cs, p, fuel, ht, _, hfuel => by
    cases fuel with
    | zero => simp [Node.depth] at hfuel
    | succ fuel =>
      simp only [FS.isTree, Bool.and_eq_true, decide_eq_true_eq, Bool.false_eq_true,
        if_false] at ht
      have hop : opendir fs p = none := by
        by_cases hlong : PATH_MAX ≤ p.length
        · exact opendir_long fs p hlong
        · rw [opendir_short fs p hlong]
          exact ht.2
      simp [dir_size_fuel, hop, Node.visible_size, off_t_wrap_zero]
  | Node.dir true cs, p, fuel, ht, _, hfuel => by
    cases fuel with
    | zero => simp [Node.depth] at hfuel
    | succ fuel =>
      simp only [FS.isTree, Bool.and_eq_true, decide_eq_true_eq, if_true] at ht
      obtain ⟨_, hnames, hcs⟩ := ht
      by_cases hlong : PATH_MAX ≤ p.length
      · simp [dir_size_fuel, opendir_long fs p hlong, Node.visible_size, hlong,
          off_t_wrap_zero]
      · cases hdirs : fs.dirs p with
        | none => simp [hdirs] at hnames
        | some names =>
          simp only [hdirs, Option.map_some', Option.some.injEq] at hnames
          have hdots : ∀ n ∈ cs.map Prod.fst, n ≠ "." ∧ n ≠ ".." := by
            intro n hn
            rw [← hnames] at hn
            simpa using (List.mem_filter.mp hn).2
          have hdepth : Node.depthL cs ≤ fuel := by
            simp only [Node.depth] at hfuel
            omega
          have hloop := dir_size_loop_tree fs cs p fuel 0 off_t_wrap_zero hcs hdots hdepth
          simp only [dir_size_fuel, opendir_short fs p hlong, hdirs]
          rw [dir_size_loop_filter, hnames, hloop]
          simp [Node.visible_size, hlong]
/-- The loop of `dir_size_recursive` over the children of a directory of a tree. -/
theorem dir_size_loop_tree (fs : FS) : ∀ (cs : List (String × Node)) (p : String)
    (fuel : Nat) (total : Int), off_t_wrap total = total → fs.isTreeL p cs = true →
    (∀ n ∈ cs.map Prod.fst, n ≠ "." ∧ n ≠ "..") → Node.depthL cs ≤ fuel →
    (cs.map Prod.fst).foldlM (dir_size_entry fs (dir_size_fuel fs fuel) p) total =
      some (off_t_wrap (total + Node.visible_sizeL p cs))
  | [], _, _, total, htot, _, _, _ => by simp [Node.visible_sizeL, pure, htot]
  | (n, c) :: cs, p, fuel, total, htot, ht, hdots, hdepth => by
    simp only [FS.isTreeL, Bool.and_eq_true] at ht
    simp only [Node.depthL] at hdepth
    have hdc : Node.depth c ≤ fuel := le_trans (le_max_left _ _) hdepth
    have hdcs : Node.depthL cs ≤ fuel := le_trans (le_max_right _ _) hdepth
    have hn : n ≠ "." ∧ n ≠ ".." := hdots n (by simp)
    have hrest : ∀ m ∈ cs.map Prod.fst, m ≠ "." ∧ m ≠ ".." := by
      intro m hm
      exact hdots m (by simp only [List.map_cons, List.mem_cons]; exact Or.inr hm)
    have htail := fun t ht1 => dir_size_loop_tree fs cs p fuel t ht1 ht.2 hrest hdcs
    have hstep : dir_size_entry fs (dir_size_fuel fs fuel) p total n =
        some (off_t_wrap (total + ((if PATH_MAX ≤ (p ++ "/" ++ n).length then 0
          else Node.visible_size (p ++ "/" ++ n) c : Nat) : Int))) := by
      by_cases hlong : PATH_MAX ≤ (p ++ "/" ++ n).length
      · simp only [hlong, if_true, Nat.cast_zero, Int.add_zero, htot]
        exact dir_size_entry_long fs _ p total n hlong
      · rw [dir_size_entry_child fs _ p total n hn hlong]
        simp only [hlong, if_false]
        have hc := ht.1
        match c, hc with
        | Node.reg size, hc =>
          simp only [FS.isTree, decide_eq_true_eq] at hc
          simp [hc, Node.visible_size, off_t_add]
        | Node.lnk, hc =>
          simp only [FS.isTree, decide_eq_true_eq] at hc
          cases hst : fs.inodes (p ++ "/" ++ n) with
          | none => simp [hst] at hc
          | some st =>
            simp only [hst, Option.map_some', Option.some.injEq] at hc
            simp [hc, Node.visible_size, htot]
        | Node.other, hc =>
          simp only [FS.isTree, decide_eq_true_eq] at hc
          cases hst : fs.inodes (p ++ "/" ++ n) with
          | none => simp [hst] at hc
          | some st =>
            simp only [hst, Option.map_some', Option.some.injEq] at hc
            simp [hc, Node.visible_size, htot]
        | Node.nostat, hc =>
          simp only [FS.isTree, decide_eq_true_eq] at hc
          simp [hc, Node.visible_size, htot]
        | Node.dir r cs1, hc =>
          have hrec := dir_size_fuel_tree fs (Node.dir r cs1) (p ++ "/" ++ n) fuel hc rfl hdc
          simp only [FS.isTree, Bool.and_eq_true, decide_eq_true_eq] at hc
          cases hst : fs.inodes (p ++ "/" ++ n) with
          | none => simp [hst] at hc
          | some st =>
            simp only [hst, Option.map_some', Option.some.injEq] at hc
            simp [hc.1, hrec, off_t_add, off_t_wrap_add_right]
    rw [List.map_cons, List.foldlM_cons, hstep]
    simp only [Option.some_bind, Option.bind_eq_bind]
    rw [htail _ (off_t_wrap_wrap _), Node.visible_sizeL, off_t_wrap_add_left]
    congr 2
    push_cast
    omega
end

/-! ## Depth of the recursion of `dir_size_recursive` on any file system -/

theorem child_path_length (path n : String) :
    path.length + 1 ≤ (path ++ "/" ++ n).length := by
  simp only [String.length_append]
  have : "/".length = 1 := rfl
  omega

theorem dir_size_loop_isSome (fs : FS) (recurse : String → Option Int) (path : String)
    (h : ∀ n, ¬ PATH_MAX ≤ (path ++ "/" ++ n).length →
      (recurse (path ++ "/" ++ n)).isSome = true)
    (names : List String) (total : Int) :
    (names.foldlM (dir_size_entry fs recurse path) total).isSome = true := by
  induction names generalizing total with
  | nil => rfl
  | cons n names ih =>
    rw [List.foldlM_cons]
    have hstep : ∃ t, dir_size_entry fs recurse path total n = some t := by
      by_cases hn : n ≠ "." ∧ n ≠ ".."
      · by_cases hlong : PATH_MAX ≤ (path ++ "/" ++ n).length
        · exact ⟨total, dir_size_entry_long fs recurse path total n hlong⟩
        · rw [dir_size_entry_child fs recurse path total n hn hlong]
          obtain ⟨w, hw⟩ := Option.isSome_iff_exists.mp (h n hlong)
          cases fs.inodes (path ++ "/" ++ n) with
          | none => exact ⟨total, rfl⟩
          | some st =>
            simp only
            split
            · exact ⟨total, rfl⟩
            · split
              · exact ⟨off_t_add total w, by simp [hw]⟩
              · split
                · exact ⟨_, rfl⟩
                · exact ⟨total, rfl⟩
      · exact ⟨total, dir_size_entry_dot fs recurse path total n hn⟩
    obtain ⟨t, ht⟩ := hstep
    rw [ht]
    exact ih t

/-- The recursion of `dir_size_recursive` returns once the call stack may grow to the
number of characters that separate the path from `PATH_MAX`: every recursive call is
on a longer path, itself shorter than `PATH_MAX`. -/
theorem dir_size_fuel_isSome (fs : FS) (fuel : Nat) (path : String) (hpos : 0 < fuel)
    (h : PATH_MAX ≤ fuel + path.length) : (dir_size_fuel fs fuel path).isSome = true := by
  induction fuel generalizing path with
  | zero => exact absurd hpos (by decide)
  | succ fuel ih =>
    unfold dir_size_fuel
    cases opendir fs path with
    | none => rfl
    | some names =>
      simp only
      apply dir_size_loop_isSome
      intro n hlong
      have hlen := child_path_length path n
      exact ih (path ++ "/" ++ n) (by omega) (by omega)

theorem dir_size_entry_mono (fs : FS) (r1 r2 : String → Option Int)
    (hr : ∀ q w, r1 q = some w → r2 q = some w) (path : String) (total : Int) (n : String)
    (t : Int) (h : dir_size_entry fs r1 path total n = some t) :
    dir_size_entry fs r2 path total n = some t := by
  by_cases hn : n ≠ "." ∧ n ≠ ".."
  · by_cases hlong : PATH_MAX ≤ (path ++ "/" ++ n).length
    · rw [dir_size_entry_long fs _ path total n hlong] at h ⊢
      exact h
    · rw [dir_size_entry_child fs _ path total n hn hlong] at h ⊢
      cases hst : fs.inodes (path ++ "/" ++ n) with
      | none =>
        rw [hst] at h
        exact h
      | some st =>
        rw [hst] at h
        simp only at h ⊢
        split
        · rename_i hl
          simpa [hl] using h
        · rename_i hl
          simp only [hl, if_false] at h
          split
          · rename_i hd
            simp only [hd, if_true, Option.map_eq_some'] at h
            obtain ⟨w, hw, hwt⟩ := h
            rw [hr _ w hw]
            simp [hwt]
          · rename_i hd
            simpa [hd] using h
  · rw [dir_size_entry_dot fs _ path total n hn] at h ⊢
    exact h

theorem dir_size_loop_mono (fs : FS) (r1 r2 : String → Option Int)
    (hr : ∀ q w, r1 q = some w → r2 q = some w) (path : String) (names : List String)
    (total v : Int) (h : names.foldlM (dir_size_entry fs r1 path) total = some v) :
    names.foldlM (dir_size_entry fs r2 path) total = some v := by
  induction names generalizing total with
  | nil => exact h
  | cons n names ih =>
    rw [List.foldlM_cons] at h ⊢
    cases hstep : dir_size_entry fs r1 path total n with
    | none => simp [hstep] at h
    | some t =>
      simp only [hstep, Option.some_bind, Option.bind_eq_bind] at h
      rw [dir_size_entry_mono fs r1 r2 hr path total n t hstep]
      simp only [Option.some_bind, Option.bind_eq_bind]
      exact ih t h

theorem dir_size_fuel_succ (fs : FS) (fuel : Nat) (path : String) (v : Int)
    (h : dir_size_fuel fs fuel path = some v) : dir_size_fuel fs (fuel + 1) path = some v := by
  induction fuel generalizing path v with
  | zero => simp [dir_size_fuel] at h
  | succ fuel ih =>
    unfold dir_size_fuel at h ⊢
    cases hop : opendir fs path with
    | none =>
      rw [hop] at h
      exact h
    | some names =>
      rw [hop] at h
      simp only at h ⊢
      exact dir_size_loop_mono fs _ _ (fun q w hq => ih q w hq) path names 0 v h

/-- A value `dir_size_recursive` returns with some bound on the call stack is the value
it returns with any larger bound. -/
theorem dir_size_fuel_mono (fs : FS) (fuel1 fuel2 : Nat) (hle : fuel1 ≤ fuel2)
    (path : String) (v : Int) (h : dir_size_fuel fs fuel1 path = some v) :
    dir_size_fuel fs fuel2 path = some v := by
  induction fuel2 with
  | zero =>
    have : fuel1 = 0 := by omega
    rw [this] at h
    exact h
  | succ fuel2 ih =>
    by_cases heq : fuel1 = fuel2 + 1
    · rw [← heq]
      exact h
    · exact dir_size_fuel_succ fs fuel2 path v (ih (by omega))

/-- The value of `dir_size_recursive` is the one the recursion returns with any bound
on the call stack under which it returns. -/
theorem dir_size_recursive_eq (fs : FS) (fuel : Nat) (path : String) (v : Int)
    (h : dir_size_fuel fs fuel path = some v) : dir_size_recursive fs path = v := by
  unfold dir_size_recursive
  by_cases hle : fuel ≤ PATH_MAX
  · rw [dir_size_fuel_mono fs fuel PATH_MAX hle path v h]
    rfl
  · obtain ⟨w, hw⟩ := Option.isSome_iff_exists.mp
      (dir_size_fuel_isSome fs PATH_MAX path (by decide) (by omega))
    have := dir_size_fuel_mono fs PATH_MAX fuel (by omega) path w hw
    rw [h] at this
    simp only [Option.some.injEq] at this
    rw [hw, this]
    rfl

theorem dir_size_recursive_tree (fs : FS) (t : Node) (p : String)
    (ht : fs.isTree p t = true) (hd : t.isDir = true) :
    dir_size_recursive fs p = off_t_wrap (Node.visible_size p t) :=
  dir_size_recursive_eq fs t.depth p _ (dir_size_fuel_tree fs t p t.depth ht hd (le_refl _))

mutual
/-- When every composed path is short enough, nothing of the tree is out of reach. -/
theorem visible_size_eq : ∀ (t : Node) (p : String), Node.fits p t = true →
    ¬ PATH_MAX ≤ p.length → Node.visible_size p t = recursive_size t
  | Node.reg _, _, _, _ => by simp [Node.visible_size, recursive_size, Node.files]
  | Node.lnk, _, _, _ => by simp [Node.visible_size, recursive_size, Node.files]
  | Node.other, _, _, _ => by simp [Node.visible_size, recursive_size, Node.files]
  | Node.nostat, _, _, _ => by simp [Node.visible_size, recursive_size, Node.files]
  | Node.dir false _, _, _, _ => by simp [Node.visible_size, recursive_size, Node.files]
  | Node.dir true cs, p, hfit, hlong => by
    simp only [Node.fits] at hfit
    simp only [Node.visible_size, hlong, if_false, recursive_size, Node.files]
    exact visible_sizeL_eq cs p hfit
/-- `visible_size_eq` over the children of a directory. -/
theorem visible_sizeL_eq : ∀ (cs : List (String × Node)) (p : String),
    Node.fitsL p cs = true → Node.visible_sizeL p cs = (Node.filesL cs).sum
  | [], _, _ => by simp [Node.visible_sizeL, Node.filesL]
  | (n, c) :: cs, p, hfit => by
    simp only [Node.fitsL, Bool.and_eq_true, decide_eq_true_eq] at hfit
    obtain ⟨⟨hlen, hc⟩, hcs⟩ := hfit
    have hlong : ¬ PATH_MAX ≤ (p ++ "/" ++ n).length := by omega
    simp only [Node.visible_sizeL, hlong, if_false, Node.filesL, List.sum_append]
    rw [visible_size_eq c (p ++ "/" ++ n) hc hlong, visible_sizeL_eq cs p hcs]
    rfl
end

/-! ## The scan of a file system tree -/

theorem is_real_subdir_dots (fs : FS) (path n : String) (h : is_real_subdir fs path n = true) :
    n ≠ "." ∧ n ≠ ".." := by
  simp only [is_real_subdir, decide_eq_true_eq] at h
  exact ⟨h.1, h.2.1⟩

theorem expected_entries_filter (fs : FS) (path : String) (names : List String) :
    expected_entries fs path names =
      expected_entries fs path (names.filter (fun n => decide (n ≠ "." ∧ n ≠ ".."))) := by
  unfold expected_entries
  rw [List.filter_filter]
  congr 1
  apply List.filter_congr
  intro n _
  cases h : is_real_subdir fs path n with
  | false => rfl
  | true =>
    have := is_real_subdir_dots fs path n h
    simp [this]

theorem direct_file_bytes_filter (fs : FS) (path : String) (names : List String) :
    direct_file_bytes fs path names =
      direct_file_bytes fs path (names.filter (fun n => decide (n ≠ "." ∧ n ≠ ".."))) := by
  unfold direct_file_bytes
  induction names with
  | nil => rfl
  | cons n names ih =>
    by_cases hn : n ≠ "." ∧ n ≠ ".."
    · rw [List.filter_cons_of_pos (by simpa using hn)]
      simp only [List.map_cons, List.sum_cons, ih]
    · rw [List.filter_cons_of_neg (by simpa using hn)]
      have hz : direct_file_size fs path n = 0 := by
        have : n = "." ∨ n = ".." := by
          by_cases h1 : n = "."
          · exact Or.inl h1
          · by_cases h2 : n = ".."
            · exact Or.inr h2
            · exact absurd ⟨h1, h2⟩ hn
        simp [direct_file_size, this]
      simp only [List.map_cons, List.sum_cons, ih, hz, Nat.zero_add]

theorem tree_entries_cons (p : String) (nc : String × Node) (cs : List (String × Node)) :
    tree_entries p (nc :: cs) = tree_entries p [nc] ++ tree_entries p cs := by
  unfold tree_entries
  cases h : Node.isDir nc.2 <;> simp [List.filter_cons, h]

/-- What the scan of the directory at `p` makes of one child of a tree. -/
theorem scan_tree_child (fs : FS) (p n : String) (c : Node)
    (ht : fs.isTree (p ++ "/" ++ n) c = true) (hfit : Node.fits (p ++ "/" ++ n) c = true)
    (hlong : ¬ PATH_MAX ≤ (p ++ "/" ++ n).length) (hn : n ≠ "." ∧ n ≠ "..")
    (hsmall : recursive_size c < 9223372036854775808) :
    expected_entries fs p [n] = tree_entries p [(n, c)] ∧
    (direct_file_size fs p n : Int) + ((tree_entries p [(n, c)]).map DirEntry.size).sum =
      ((Node.files c).sum : Nat) := by
  have hl := lstat_short fs _ hlong
  have hdots : ¬ (n = "." ∨ n = "..") := by
    intro h
    rcases h with h | h
    · exact hn.1 h
    · exact hn.2 h
  match c, ht, hfit, hsmall with
  | Node.reg size, ht, _, _ =>
    simp only [FS.isTree, decide_eq_true_eq] at ht
    have h1 : is_real_subdir fs p n = false := by
      simp [is_real_subdir, hl, ht]
    rw [expected_entries_single_false fs p n h1]
    simp [tree_entries, Node.isDir, direct_file_size, hdots, hl, ht, Node.files]
  | Node.lnk, ht, _, _ =>
    simp only [FS.isTree, decide_eq_true_eq] at ht
    cases hst : fs.inodes (p ++ "/" ++ n) with
    | none => simp [hst] at ht
    | some st =>
      simp only [hst, Option.map_some', Option.some.injEq] at ht
      have h1 : is_real_subdir fs p n = false := by
        simp [is_real_subdir, hl, hst, ht]
      rw [expected_entries_single_false fs p n h1]
      simp [tree_entries, Node.isDir, direct_file_size, hdots, hl, hst, ht, Node.files]
  | Node.other, ht, _, _ =>
    simp only [FS.isTree, decide_eq_true_eq] at ht
    cases hst : fs.inodes (p ++ "/" ++ n) with
    | none => simp [hst] at ht
    | some st =>
      simp only [hst, Option.map_some', Option.some.injEq] at ht
      have h1 : is_real_subdir fs p n = false := by
        simp [is_real_subdir, hl, hst, ht]
      rw [expected_entries_single_false fs p n h1]
      simp [tree_entries, Node.isDir, direct_file_size, hdots, hl, hst, ht, Node.files]
  | Node.nostat, ht, _, _ =>
    simp only [FS.isTree, decide_eq_true_eq] at ht
    have h1 : is_real_subdir fs p n = false := by
      simp [is_real_subdir, hl, ht]
    rw [expected_entries_single_false fs p n h1]
    simp [tree_entries, Node.isDir, direct_file_size, hdots, hl, ht, Node.files]
  | Node.dir r cs, ht, hfit, hsmall =>
    have hsize : dir_size_recursive fs (p ++ "/" ++ n) =
        (recursive_size (Node.dir r cs) : Int) := by
      rw [dir_size_recursive_tree fs _ _ ht rfl, visible_size_eq _ _ hfit hlong]
      exact off_t_wrap_of_range _ (by omega) (by omega)
    simp only [FS.isTree, Bool.and_eq_true, decide_eq_true_eq] at ht
    cases hst : fs.inodes (p ++ "/" ++ n) with
    | none => simp [hst] at ht
    | some st =>
      simp only [hst, Option.map_some', Option.some.injEq] at ht
      have h1 : is_real_subdir fs p n = true := by
        simp [is_real_subdir, hl, hst, ht.1, hn]
      rw [expected_entries_single_true fs p n h1, hsize]
      simp [tree_entries, Node.isDir, direct_file_size, hdots, hl, hst, ht.1, recursive_size]

theorem scan_tree_children (fs : FS) (p : String) (cs : List (String × Node))
    (ht : fs.isTreeL p cs = true) (hfit : Node.fitsL p cs = true)
    (hdots : ∀ n ∈ cs.map Prod.fst, n ≠ "." ∧ n ≠ "..")
    (hsmall : (Node.filesL cs).sum < 9223372036854775808) :
    expected_entries fs p (cs.map Prod.fst) = tree_entries p cs ∧
    (direct_file_bytes fs p (cs.map Prod.fst) : Int) +
        ((tree_entries p cs).map DirEntry.size).sum =
      ((Node.filesL cs).sum : Nat) := by
  induction cs with
  | nil => simp [expected_entries, tree_entries, direct_file_bytes, Node.filesL]
  | cons nc cs ih =>
    obtain ⟨n, c⟩ := nc
    simp only [FS.isTreeL, Bool.and_eq_true] at ht
    simp only [Node.fitsL, Bool.and_eq_true, decide_eq_true_eq] at hfit
    obtain ⟨⟨hlen, hc⟩, hcs⟩ := hfit
    simp only [Node.filesL, List.sum_append] at hsmall
    have hn : n ≠ "." ∧ n ≠ ".." := hdots n (by simp)
    have hrest : ∀ m ∈ cs.map Prod.fst, m ≠ "." ∧ m ≠ ".." := by
      intro m hm
      exact hdots m (by simp only [List.map_cons, List.mem_cons]; exact Or.inr hm)
    have h1 := scan_tree_child fs p n c ht.1 hc (by omega) hn
      (by unfold recursive_size; omega)
    have h2 := ih ht.2 hcs hrest (by omega)
    rw [List.map_cons, expected_entries_cons, tree_entries_cons, h1.1, h2.1]
    refine ⟨rfl, ?_⟩
    have h3 := h1.2
    have h4 := h2.2
    simp only [direct_file_bytes, List.map_cons, List.sum_cons, List.map_append,
      List.sum_append, Node.filesL, Nat.cast_add] at h4 ⊢
    omega

/-- The scan of the root of a tree whose composed paths are all shorter than
`PATH_MAX` and whose reference recursive size is in the range of `off_t`. -/
theorem scan_directory_tree (fs : FS) (mem : Mem) (p : String) (cs : List (String × Node))
    (v : DirView) (ht : fs.isTree p (Node.dir true cs) = true)
    (hfit : Node.fits p (Node.dir true cs) = true)
    (hsmall : recursive_size (Node.dir true cs) < 9223372036854775808)
    (h : scan_directory fs mem p = some v) :
    v.entries = qsort compare_entries_desc (tree_entries p cs) ∧
    v.total_size = recursive_size (Node.dir true cs) := by
  obtain ⟨names, hop, hent, htot⟩ := scan_directory_spec fs mem p v h
  simp only [FS.isTree, Bool.and_eq_true, decide_eq_true_eq, if_true] at ht
  obtain ⟨_, hnames, hcs⟩ := ht
  simp only [Node.fits] at hfit
  have hlong : ¬ PATH_MAX ≤ p.length := by
    intro hl
    rw [opendir_long fs p hl] at hop
    exact absurd hop (by simp)
  rw [opendir_short fs p hlong] at hop
  simp only [hop, Option.map_some', Option.some.injEq] at hnames
  have hdots : ∀ n ∈ cs.map Prod.fst, n ≠ "." ∧ n ≠ ".." := by
    intro n hn
    rw [← hnames] at hn
    simpa using (List.mem_filter.mp hn).2
  simp only [recursive_size, Node.files] at hsmall
  have hkids := scan_tree_children fs p cs hcs hfit hdots hsmall
  rw [expected_entries_filter, hnames, hkids.1] at hent htot
  rw [direct_file_bytes_filter, hnames] at htot
  refine ⟨hent, ?_⟩
  rw [htot, hkids.2]
  simp only [recursive_size, Node.files]
  exact off_t_wrap_of_range _ (by omega) (by omega)

/-- C3, as stated, fails.  In `fsDeep` the entry `sub` is listed with size 0, and the
reference recursive size of that subdirectory is 1000: the path composed for the file
it holds has 4100 characters, and the traversal skips it.  In `fsVault`, where every
composed path is short, the entry `big` is listed with size `-2 ^ 63`, and the
reference recursive size of that subdirectory is `2 ^ 63`: the `off_t` addition
wrapped around. -/
theorem scan_directory_recursive_size_counterexample :
    (fsDeep.isTree deepPath (Node.dir true treeDeep) = true ∧
      scan_directory fsDeep Mem.ok deepPath =
        some ⟨some deepPath, [⟨"sub", deepPath ++ "/sub", 0⟩], 0⟩ ∧
      (tree_entries deepPath treeDeep).map DirEntry.size = [1000] ∧
      (deepPath ++ "/sub/" ++ longName 255).length = 4100) ∧
    (fsVault.isTree "/vault" (Node.dir true treeVault) = true ∧
      Node.fits "/vault" (Node.dir true treeVault) = true ∧
      scan_directory fsVault Mem.ok "/vault" =
        some ⟨some "/vault", [⟨"big", "/vault/big", -9223372036854775808⟩],
          -9223372036854775808⟩ ∧
      (tree_entries "/vault" treeVault).map DirEntry.size = [9223372036854775808] ∧
      recursive_size (Node.dir true treeVault) = 9223372036854775808) :=
  ⟨⟨by decide!, by decide!, by decide, by decide!⟩,
    ⟨by decide, by decide, by decide, by decide, by decide⟩⟩

/-- C3, amended: when every path composed during the traversal is shorter than
`PATH_MAX` and the reference recursive size of the scanned directory is below `2 ^ 63`,
the entries of the view are the subdirectories among the children of the scanned
directory, each with the reference recursive size of its subtree, and the total size is
the reference recursive size of the scanned directory. -/
theorem scan_directory_recursive_size (fs : FS) (mem : Mem) (p : String)
    (cs : List (String × Node)) (v : DirView)
    (ht : fs.isTree p (Node.dir true cs) = true)
    (hfit : Node.fits p (Node.dir true cs) = true)
    (hsmall : recursive_size (Node.dir true cs) < 9223372036854775808)
    (h : scan_directory fs mem p = some v) :
    v.entries.Perm (tree_entries p cs) ∧
    (∀ e ∈ v.entries, ∃ c, (e.name, c) ∈ cs ∧ c.isDir = true ∧ e.path = p ++ "/" ++ e.name ∧
      e.size = recursive_size c) ∧
    v.total_size = recursive_size (Node.dir true cs) := by
  obtain ⟨hent, htot⟩ := scan_directory_tree fs mem p cs v ht hfit hsmall h
  have hperm : v.entries.Perm (tree_entries p cs) := by
    rw [hent]
    exact qsort_perm _ _
  refine ⟨hperm, ?_, htot⟩
  intro e he
  have he1 : e ∈ tree_entries p cs := hperm.mem_iff.mp he
  simp only [tree_entries, List.mem_map, List.mem_filter] at he1
  obtain ⟨⟨n, c⟩, ⟨hmem, hdir⟩, rfl⟩ := he1
  exact ⟨c, hmem, hdir, rfl, rfl⟩

theorem scan_directory_recursive_size_witness :
    fsDemo.isTree "/tmp/t" (Node.dir true treeDemo) = true ∧
    Node.fits "/tmp/t" (Node.dir true treeDemo) = true ∧
    recursive_size (Node.dir true treeDemo) = 3584 ∧
    scan_directory fsDemo Mem.ok "/tmp/t" = some viewDemo ∧
    (viewDemo.entries.Perm (tree_entries "/tmp/t" treeDemo) ∧
    (∀ e ∈ viewDemo.entries, ∃ c, (e.name, c) ∈ treeDemo ∧ c.isDir = true ∧
      e.path = "/tmp/t" ++ "/" ++ e.name ∧ e.size = recursive_size c) ∧
    viewDemo.total_size = recursive_size (Node.dir true treeDemo)) :=
  ⟨by decide, by decide, by decide, by decide,
    scan_directory_recursive_size fsDemo Mem.ok "/tmp/t" treeDemo viewDemo (by decide)
      (by decide) (by decide) (by decide)⟩

/-- C7: on every finite file system tree, whatever lies behind its symbolic links, the
recursion of `dir_size_recursive` returns as soon as the call stack may grow to the
depth of the tree: it descends along the directory edges of the tree only. -/
theorem dir_size_recursive_terminates (fs : FS) (t : Node) (p : String)
    (ht : fs.isTree p t = true) (hd : t.isDir = true) (fuel : Nat) (hfuel : t.depth ≤ fuel) :
    dir_size_fuel fs fuel p = some (dir_size_recursive fs p) := by
  rw [dir_size_recursive_tree fs t p ht hd]
  exact dir_size_fuel_tree fs t p fuel ht hd hfuel

theorem dir_size_recursive_terminates_witness :
    fsCycle.isTree "/t" treeCycle = true ∧ treeCycle.isDir = true ∧ treeCycle.depth ≤ 2 ∧
    fsCycle.dirs "/t/a/loop/a/loop" = fsCycle.dirs "/t" ∧
    dir_size_recursive fsCycle "/t" = 10 ∧
    dir_size_fuel fsCycle 2 "/t" = some (dir_size_recursive fsCycle "/t") :=
  ⟨by decide, by decide, by decide, by decide, by decide,
    dir_size_recursive_terminates fsCycle treeCycle "/t" (by decide) (by decide) 2
      (by decide)⟩

/-! ## `human_size` -/

theorem to_double_e (bytes : Nat) : (to_double bytes).e = 0 := by
  unfold to_double
  split <;> rfl

theorem to_double_small (bytes : Nat) (h : bytes < 2 ^ 53) : (to_double bytes).m = bytes := by
  unfold to_double
  rw [if_pos h]

theorem to_double_large (bytes : Nat) (h : ¬ bytes < 2 ^ 53) :
    2 ^ 53 ≤ (to_double bytes).m := by
  have hne : bytes ≠ 0 := by
    intro h0
    rw [h0] at h
    exact h (by norm_num)
  have hlog : 53 ≤ bytes.log2 := (Nat.le_log2 hne).mpr (by omega)
  have hself : 2 ^ bytes.log2 ≤ bytes := Nat.log2_self_le hne
  obtain ⟨sh, hsh⟩ : ∃ sh, sh = bytes.log2 - 52 := ⟨_, rfl⟩
  have hL : bytes.log2 = 52 + sh := by omega
  have hpos : 0 < 2 ^ sh := Nat.two_pow_pos _
  have hq : 2 ^ 52 ≤ bytes / 2 ^ sh := by
    rw [Nat.le_div_iff_mul_le hpos, ← Nat.pow_add, ← hL]
    exact hself
  have htwo : 2 ≤ 2 ^ sh := by
    have : 1 ≤ sh := by omega
    calc 2 = 2 ^ 1 := rfl
      _ ≤ 2 ^ sh := Nat.pow_le_pow_right (by decide) this
  unfold to_double
  simp only [h, if_false, ← hsh]
  have hq1 : 2 ^ 52 ≤ (if 2 * (bytes % 2 ^ sh) > 2 ^ sh ∨
      (2 * (bytes % 2 ^ sh) = 2 ^ sh ∧ bytes / 2 ^ sh % 2 = 1)
      then bytes / 2 ^ sh + 1 else bytes / 2 ^ sh) := by
    split <;> omega
  calc 2 ^ 53 = 2 ^ 52 * 2 := by norm_num
    _ ≤ _ := Nat.mul_le_mul hq1 htwo

/-- Comparing the converted value with a bound of at most `2 ^ 53` is comparing the
byte count with it. -/
theorem to_double_le_iff (bytes t : Nat) (ht : t ≤ 2 ^ 53) :
    t ≤ (to_double bytes).m ↔ t ≤ bytes := by
  by_cases h : bytes < 2 ^ 53
  · rw [to_double_small bytes h]
  · have := to_double_large bytes h
    constructor
    · intro _
      omega
    · intro _
      omega

theorem human_size_while_spec (d : Nat) :
    ∃ k, k ≤ 4 ∧ human_size_while 4 ⟨d, 0⟩ 0 = (⟨d, 10 * k⟩, k) ∧
      (∀ j, j < k → 1024 ^ (j + 1) ≤ d) ∧ (k < 4 → d < 1024 ^ (k + 1)) := by
  by_cases h1 : 1024 ≤ d
  · by_cases h2 : 1048576 ≤ d
    · by_cases h3 : 1073741824 ≤ d
      · by_cases h4 : 1099511627776 ≤ d
        · refine ⟨4, le_refl _, ?_, ?_, ?_⟩
          · simp [human_size_while, h1, h2, h3, h4]
          · intro j hj
            interval_cases j <;> norm_num <;> omega
          · intro h
            exact absurd h (by decide)
        · refine ⟨3, by decide, ?_, ?_, ?_⟩
          · simp [human_size_while, h1, h2, h3, h4]
          · intro j hj
            interval_cases j <;> norm_num <;> omega
          · intro _
            norm_num
            omega
      · refine ⟨2, by decide, ?_, ?_, ?_⟩
        · simp [human_size_while, h1, h2, h3]
        · intro j hj
          interval_cases j <;> norm_num <;> omega
        · intro _
          norm_num
          omega
    · refine ⟨1, by decide, ?_, ?_, ?_⟩
      · simp [human_size_while, h1, h2]
      · intro j hj
        interval_cases j
        norm_num
        omega
      · intro _
        norm_num
        omega
  · refine ⟨0, by decide, ?_, ?_, ?_⟩
    · simp [human_size_while, h1]
    · intro j hj
      exact absurd hj (by omega)
    · intro _
      norm_num
      omega

/-- The number of hundredths printed is the exact value times 100, rounded to a
nearest integer. -/
theorem hundredths_round (m e : Nat) :
    200 * m ≤ (2 * hundredths ⟨m, e⟩ + 1) * 2 ^ e ∧
    2 * hundredths ⟨m, e⟩ * 2 ^ e ≤ 200 * m + 2 ^ e := by
  have hpos : 0 < 2 ^ e := Nat.two_pow_pos _
  have hdiv := Nat.div_add_mod (100 * m) (2 ^ e)
  have hmod := Nat.mod_lt (100 * m) hpos
  unfold hundredths
  simp only
  generalize 2 ^ e = D at *
  generalize 100 * m / D = q at *
  generalize 100 * m % D = r at *
  obtain ⟨P, hP⟩ : ∃ P, P = D * q := ⟨_, rfl⟩
  rw [← hP] at hdiv
  split
  · rename_i hc
    have e1 : (2 * (q + 1) + 1) * D = 2 * P + 3 * D := by rw [hP]; ring
    have e2 : 2 * (q + 1) * D = 2 * P + 2 * D := by rw [hP]; ring
    rw [e1, e2]
    constructor
    · omega
    · rcases hc with hc | hc
      · omega
      · omega
  · rename_i hc
    have e1 : (2 * q + 1) * D = 2 * P + D := by rw [hP]; ring
    have e2 : 2 * q * D = 2 * P := by rw [hP]; ring
    rw [e1, e2]
    constructor
    · by_contra hlt
      apply hc
      left
      omega
    · omega

/-- C8: `human_size` divides the value by 1024 while it is at least 1024 and fewer
than 4 divisions were made, and prints the result rounded to two decimal digits, a
space and the unit of that many divisions; 0 gives `0.00 B`, 1536 gives `1.50 KiB`,
and a value of `1024 ^ 5` or more is printed in TiB. -/
theorem human_size_format :
    (∀ bytes : Nat, ∃ k h d : Nat, ∃ u : String,
      d = (to_double bytes).m ∧ (bytes < 2 ^ 53 → d = bytes) ∧
      k ≤ 4 ∧ (∀ j, j < k → 1024 ^ (j + 1) ≤ bytes) ∧ (k < 4 → bytes < 1024 ^ (k + 1)) ∧
      units.get? k = some u ∧
      human_size bytes =
        Nat.repr (h / 100) ++ "." ++ Nat.repr (h % 100 / 10) ++ Nat.repr (h % 10) ++ " " ++ u ∧
      h % 100 / 10 < 10 ∧ h % 10 < 10 ∧
      200 * d ≤ (2 * h + 1) * 1024 ^ k ∧ 2 * h * 1024 ^ k ≤ 200 * d + 1024 ^ k ∧
      (1024 ^ 5 ≤ bytes → u = "TiB")) ∧
    human_size 0 = "0.00 B" ∧ human_size 1536 = "1.50 KiB" := by
  refine ⟨?_, by decide, by decide⟩
  intro bytes
  obtain ⟨k, hk, hloop, hge, hlt⟩ := human_size_while_spec (to_double bytes).m
  have hdbl : to_double bytes = ⟨(to_double bytes).m, 0⟩ := by
    have := to_double_e bytes
    cases hd : to_double bytes with
    | mk m e =>
      rw [hd] at this
      simp only at this
      rw [this]
  have hpow : (2 : Nat) ^ (10 * k) = 1024 ^ k := by
    rw [Nat.pow_mul]
  have hround := hundredths_round (to_double bytes).m (10 * k)
  rw [hpow] at hround
  have hu : ∃ u, units.get? k = some u ∧ units.getD k "" = u ∧ (k = 4 → u = "TiB") := by
    interval_cases k <;> exact ⟨_, rfl, rfl, by decide⟩
  obtain ⟨u, hu1, hu2, hu3⟩ := hu
  refine ⟨k, hundredths ⟨(to_double bytes).m, 10 * k⟩, (to_double bytes).m, u, rfl,
    to_double_small bytes, hk, ?_, ?_, hu1, ?_, ?_, ?_, hround.1, hround.2, ?_⟩
  · intro j hj
    have h1 := hge j hj
    have hb : 1024 ^ (j + 1) ≤ 2 ^ 53 := by
      have : j < 4 := by omega
      interval_cases j <;> norm_num
    exact (to_double_le_iff bytes _ hb).mp h1
  · intro h4
    have h1 := hlt h4
    have hb : 1024 ^ (k + 1) ≤ 2 ^ 53 := by
      interval_cases k <;> norm_num
    by_contra hc
    have := (to_double_le_iff bytes _ hb).mpr (by omega)
    omega
  · unfold human_size
    rw [hdbl, hloop]
    simp only [printf_2f, hu2]
  · omega
  · omega
  · intro h5
    apply hu3
    by_contra hk4
    have h1 := hlt (by omega)
    have hb : 1024 ^ (k + 1) ≤ 2 ^ 53 := by
      interval_cases k <;> norm_num
    have h2 : 1024 ^ (k + 1) ≤ bytes := by
      have : (1024 : Nat) ^ (k + 1) ≤ 1024 ^ 5 := Nat.pow_le_pow_right (by decide) (by omega)
      omega
    have := (to_double_le_iff bytes _ hb).mpr h2
    omega

/-! ## Selection and scrolling -/

/-- C9, on a terminal of 24 rows and a directory of 18 subdirectories: after 17 times
`KEY_DOWN` the selection is entry 17 and the scroll offset still 0, while `draw_view`
draws 17 rows, the entries 0 to 16: the selected entry is not on screen. -/
theorem ui_selection_not_drawn :
    ((ui_run 24 fsMany Mem.ok "/data"
        (List.replicate 17 (Env.still fsMany, Key.down))).state.map
      (fun st => (st.selected, st.scroll_offset, st.view.map DirView.count))) =
      some (17, 0, some 18) ∧
    draw_visible_rows 24 = 17 ∧
    ((ui_run 24 fsMany Mem.ok "/data"
        (List.replicate 17 (Env.still fsMany, Key.down))).state.bind
      (fun st => st.view.map (fun v => draw_view 24 v st.scroll_offset))) =
      some (List.range 17) ∧
    ¬ ((17 : Int) < 0 + draw_visible_rows 24) := by
  refine ⟨by decide, by decide, by decide, by decide⟩

/-- C10, in a session started on `/w` with four subdirectories: after three times
`KEY_DOWN` the selection is entry 3; the directory then loses three subdirectories
and the fourth becomes unreadable; Enter fails to scan it and puts the rescanned view
of `/w`, with one entry, in place without touching the selection, which stays 3; the
next Enter reads `entries[3]`, beyond the end of the array. -/
theorem ui_selection_out_of_range :
    ((ui_run 24 fsFour Mem.ok "/w"
        [(Env.still fsFour, Key.down), (Env.still fsFour, Key.down),
         (Env.still fsFour, Key.down), (Env.still fsShrunk, Key.enter)]).state.map
      (fun st => (st.current, st.selected, st.view.map DirView.count))) =
      some ("/w", 3, some 1) ∧
    ui_run 24 fsFour Mem.ok "/w"
        [(Env.still fsFour, Key.down), (Env.still fsFour, Key.down),
         (Env.still fsFour, Key.down), (Env.still fsShrunk, Key.enter),
         (Env.still fsShrunk, Key.enter)] = Outcome.undefined := by
  refine ⟨by decide, by decide⟩

/-! ## Scans that fail during navigation -/

/-- C11: a Rescan or GoToParent event whose scan fails leaves the local variables of
the loop as they were: current path, view, selection and scroll offset. -/
theorem ui_failed_scan_ignored (rows : Int) (env : Env) (st : UI) (view : DirView)
    (hview : st.view = some view) :
    (scan_directory env.fs env.mem st.current = none →
      ui_step rows env st Key.rescan = Outcome.running st) ∧
    (scan_directory env.fs env.mem (parent_path st.current) = none →
      ui_step rows env st Key.parent = Outcome.running st) := by
  constructor
  · intro h
    simp only [ui_step, hview, ui_key, h]
  · intro h
    simp only [ui_step, hview, ui_key, h]
    split <;> rfl

theorem ui_failed_scan_ignored_witness :
    uiFour.view = some viewFour ∧
    scan_directory (Env.still fsLocked).fs (Env.still fsLocked).mem uiFour.current = none ∧
    scan_directory (Env.still fsLocked).fs (Env.still fsLocked).mem
      (parent_path uiFour.current) = none ∧
    parent_path uiFour.current = "/" ∧
    ui_step 24 (Env.still fsLocked) uiFour Key.rescan = Outcome.running uiFour ∧
    ui_step 24 (Env.still fsLocked) uiFour Key.parent = Outcome.running uiFour :=
  ⟨rfl, by decide, by decide, by decide,
    (ui_failed_scan_ignored 24 (Env.still fsLocked) uiFour viewFour rfl).1 (by decide),
    (ui_failed_scan_ignored 24 (Env.still fsLocked) uiFour viewFour rfl).2 (by decide)⟩

/-- C12, in a session started on `/w` with four subdirectories: the directories then
become unreadable; Enter resolves the selected entry, fails to scan it, fails to scan
`/w` again and leaves the view `NULL`; the next iteration of the loop passes it to
`draw_view`, which reads through it. -/
theorem ui_view_null :
    ((ui_run 24 fsFour Mem.ok "/w" [(Env.still fsLocked, Key.enter)]).state.map
      (fun st => (st.current, st.view))) = some ("/w", none) ∧
    (∀ key, ui_run 24 fsFour Mem.ok "/w"
      [(Env.still fsLocked, Key.enter), (Env.still fsFour, key)] = Outcome.undefined) := by
  refine ⟨by decide, ?_⟩
  intro key
  cases key <;> decide

/-! ## The window of the controller -/

theorem ui_init_spec (fs : FS) (mem : Mem) (start_path : String) (st0 : UI)
    (h : ui_init fs mem start_path = some st0) :
    st0.selected = 0 ∧ st0.scroll_offset = 0 ∧
    ∃ view, st0.view = some view ∧ scan_directory fs mem st0.current = some view := by
  unfold ui_init at h
  simp only at h
  generalize (match realpath fs start_path with
    | some r => r
    | none => strncpy start_path (PATH_MAX - 1)) = current at h
  cases hscan : scan_directory fs mem current with
  | none => simp [hscan] at h
  | some view =>
    simp only [hscan, Option.some.injEq] at h
    subst h
    exact ⟨rfl, rfl, view, rfl, hscan⟩

theorem ui_key_window (rows : Int) (hrows : 6 ≤ rows) (env : Env) (st st1 : UI)
    (view : DirView) (key : Key) (hinv : window_inv rows st)
    (h : ui_key rows env st view key = Outcome.running st1) : window_inv rows st1 := by
  obtain ⟨h0, h1, h2⟩ := hinv
  have hzero : window_inv rows ⟨st1.current, st1.view, 0, 0⟩ := by
    refine ⟨le_refl _, le_refl _, ?_⟩
    show (0 : Int) < 0 + (rows - 5)
    omega
  cases key with
  | quit => simp [ui_key] at h
  | up =>
    simp only [ui_key] at h
    split at h
    · simp only [Outcome.running.injEq] at h
      subst h
      simp only [window_inv]
      split <;> omega
    · simp only [Outcome.running.injEq] at h
      subst h
      exact ⟨h0, h1, h2⟩
  | down =>
    simp only [ui_key] at h
    split at h
    · simp only [Outcome.running.injEq] at h
      subst h
      simp only [window_inv]
      split <;> omega
    · simp only [Outcome.running.injEq] at h
      subst h
      exact ⟨h0, h1, h2⟩
  | enter =>
    simp only [ui_key] at h
    split at h
    · simp only [Outcome.running.injEq] at h
      subst h
      exact ⟨h0, h1, h2⟩
    · split at h
      · exact absurd h (by simp)
      · split at h
        · exact absurd h (by simp)
        · split at h
          · simp only [Outcome.running.injEq] at h
            subst h
            exact ⟨h0, h1, h2⟩
          · split at h
            · simp only [Outcome.running.injEq] at h
              subst h
              exact ⟨h0, h1, h2⟩
            · simp only [Outcome.running.injEq] at h
              subst h
              exact hzero
  | parent =>
    simp only [ui_key] at h
    split at h
    · simp only [Outcome.running.injEq] at h
      subst h
      exact ⟨h0, h1, h2⟩
    · split at h
      · simp only [Outcome.running.injEq] at h
        subst h
        exact ⟨h0, h1, h2⟩
      · simp only [Outcome.running.injEq] at h
        subst h
        exact hzero
  | rescan =>
    simp only [ui_key] at h
    split at h
    · simp only [Outcome.running.injEq] at h
      subst h
      exact ⟨h0, h1, h2⟩
    · simp only [Outcome.running.injEq] at h
      subst h
      exact hzero
  | ignored =>
    simp only [ui_key, Outcome.running.injEq] at h
    subst h
    exact ⟨h0, h1, h2⟩

theorem ui_loop_window (rows : Int) (hrows : 6 ≤ rows) (events : List (Env × Key))
    (st st1 : UI) (hinv : window_inv rows st)
    (h : ui_loop rows st events = Outcome.running st1) : window_inv rows st1 := by
  induction events generalizing st with
  | nil =>
    simp only [ui_loop, Outcome.running.injEq] at h
    subst h
    exact hinv
  | cons ev rest ih =>
    obtain ⟨env, key⟩ := ev
    simp only [ui_loop] at h
    cases hstep : ui_step rows env st key with
    | running st2 =>
      simp only [hstep] at h
      have hkey : ∃ view, ui_key rows env st view key = Outcome.running st2 := by
        unfold ui_step at hstep
        cases hv : st.view with
        | none => simp [hv] at hstep
        | some view =>
          simp only [hv] at hstep
          exact ⟨view, hstep⟩
      obtain ⟨view, hkey⟩ := hkey
      exact ih st2 (ui_key_window rows hrows env st st2 view key hinv hkey) h
    | exited code => simp [hstep] at h
    | undefined => simp [hstep] at h

/-- C18: on a terminal of at least 6 rows every state the loop reaches has
`0 <= scroll_offset <= selected < scroll_offset + (rows - 5)`; on a terminal of at most
5 rows the first `KEY_DOWN` on a view of two entries or more sets `scroll_offset`
above `selected`. -/
theorem ui_window (rows : Int) (hrows : 6 ≤ rows) (fs : FS) (mem : Mem)
    (start_path : String) (events : List (Env × Key)) (st : UI)
    (h : ui_run rows fs mem start_path events = Outcome.running st) :
    (0 ≤ st.scroll_offset ∧ st.scroll_offset ≤ st.selected ∧
      st.selected < st.scroll_offset + (rows - 5)) ∧
    (∀ (r : Int) (env : Env) (current : String) (view : DirView), r ≤ 5 → 2 ≤ view.count →
      ∃ st1, ui_step r env ⟨current, some view, 0, 0⟩ Key.down = Outcome.running st1 ∧
        st1.selected = 1 ∧ st1.selected < st1.scroll_offset) := by
  constructor
  · unfold ui_run at h
    cases hinit : ui_init fs mem start_path with
    | none => simp [hinit] at h
    | some st0 =>
      simp only [hinit] at h
      have h0 : window_inv rows st0 := by
        obtain ⟨hsel, hscr, _⟩ := ui_init_spec fs mem start_path st0 hinit
        simp only [window_inv, hsel, hscr]
        omega
      exact ui_loop_window rows hrows events st0 st h0 h
  · intro r env current view hr hcount
    have hc : (size_t_of_int 0 + 1) % 2 ^ 64 < view.count := by
      have : (size_t_of_int 0 + 1) % 2 ^ 64 = 1 := by decide
      rw [this]
      omega
    have hge : (0 : Int) + 1 ≥ 0 + (r - 5) := by omega
    refine ⟨⟨current, some view, 0 + 1, 0 + 1 - (r - 5) + 1⟩, ?_, ?_, ?_⟩
    · simp only [ui_step, ui_key, hc, if_true, hge]
    · simp
    · simp only
      omega

theorem ui_window_witness :
    (6 : Int) ≤ 24 ∧
    ui_run 24 fsFour Mem.ok "/w"
      [(Env.still fsFour, Key.down), (Env.still fsFour, Key.down),
       (Env.still fsFour, Key.up)] = Outcome.running ⟨"/w", some viewFour, 1, 0⟩ ∧
    ((0 : Int) ≤ (⟨"/w", some viewFour, 1, 0⟩ : UI).scroll_offset ∧
      (⟨"/w", some viewFour, 1, 0⟩ : UI).scroll_offset ≤
        (⟨"/w", some viewFour, 1, 0⟩ : UI).selected ∧
      (⟨"/w", some viewFour, 1, 0⟩ : UI).selected <
        (⟨"/w", some viewFour, 1, 0⟩ : UI).scroll_offset + (24 - 5)) :=
  ⟨by decide, by decide,
    (ui_window 24 (by decide) fsFour Mem.ok "/w"
      [(Env.still fsFour, Key.down), (Env.still fsFour, Key.down),
       (Env.still fsFour, Key.up)] ⟨"/w", some viewFour, 1, 0⟩ (by decide)).1⟩

/-! ## `dir_size_recursive` and `scan_directory` compute the same total -/

theorem dir_size_fuel_PATH_MAX (fs : FS) (p : String) :
    dir_size_fuel fs PATH_MAX p = some (dir_size_recursive fs p) := by
  obtain ⟨w, hw⟩ := Option.isSome_iff_exists.mp
    (dir_size_fuel_isSome fs PATH_MAX p (by decide) (by omega))
  rw [hw, dir_size_recursive_eq fs PATH_MAX p w hw]

/-- The loop body of `dir_size_recursive` adds to `total` what the loop body of
`scan_directory` adds for the same directory entry. -/
theorem dir_size_entry_total (fs : FS) (path : String) (total : Int) (n : String)
    (ht : off_t_wrap total = total) :
    dir_size_entry fs (dir_size_fuel fs PATH_MAX) path total n =
      some (off_t_wrap (total + direct_file_size fs path n +
        ((expected_entries fs path [n]).map DirEntry.size).sum)) := by
  rcases entry_cases fs path n with ⟨hsub, hfile, hskip⟩ | ⟨hsub, hdot, hlong, st, hst, hreg, hfile⟩ |
    ⟨hsub, hfile, hdot, hlong, st, hst, hdir⟩
  · rw [expected_entries_single_false fs path n hsub, hfile]
    simp only [List.map_nil, List.sum_nil, Nat.cast_zero, Int.add_zero, ht]
    rcases hskip with h | h | h | ⟨st, h, hd, hr⟩
    · exact dir_size_entry_dot fs _ path total n (by
        intro hc
        rcases h with h | h
        · exact hc.1 h
        · exact hc.2 h)
    · exact dir_size_entry_long fs _ path total n h
    · by_cases hlong : PATH_MAX ≤ (path ++ "/" ++ n).length
      · exact dir_size_entry_long fs _ path total n hlong
      · by_cases hn : n ≠ "." ∧ n ≠ ".."
        · rw [dir_size_entry_child fs _ path total n hn hlong, ← lstat_short fs _ hlong, h]
        · exact dir_size_entry_dot fs _ path total n hn
    · by_cases hlong : PATH_MAX ≤ (path ++ "/" ++ n).length
      · exact dir_size_entry_long fs _ path total n hlong
      · by_cases hn : n ≠ "." ∧ n ≠ ".."
        · rw [dir_size_entry_child fs _ path total n hn hlong, ← lstat_short fs _ hlong, h]
          simp only [hd, hr, if_false]
          split <;> rfl
        · exact dir_size_entry_dot fs _ path total n hn
  · have hn : n ≠ "." ∧ n ≠ ".." := ⟨fun hc => hdot (Or.inl hc), fun hc => hdot (Or.inr hc)⟩
    rw [expected_entries_single_false fs path n hsub, hfile,
      dir_size_entry_child fs _ path total n hn hlong, ← lstat_short fs _ hlong, hst]
    have h1 : FileType.reg ≠ FileType.lnk := by decide
    have h2 : FileType.reg ≠ FileType.dir := by decide
    simp [hreg, h1, h2, off_t_add]
  · have hn : n ≠ "." ∧ n ≠ ".." := ⟨fun hc => hdot (Or.inl hc), fun hc => hdot (Or.inr hc)⟩
    rw [expected_entries_single_true fs path n hsub, hfile,
      dir_size_entry_child fs _ path total n hn hlong, ← lstat_short fs _ hlong, hst]
    have h1 : FileType.dir ≠ FileType.lnk := by decide
    simp [hdir, h1, dir_size_fuel_PATH_MAX, off_t_add]

theorem dir_size_loop_total (fs : FS) (path : String) (names : List String) (total : Int)
    (ht : off_t_wrap total = total) :
    names.foldlM (dir_size_entry fs (dir_size_fuel fs PATH_MAX) path) total =
      some (off_t_wrap (total + direct_file_bytes fs path names +
        ((expected_entries fs path names).map DirEntry.size).sum)) := by
  induction names generalizing total with
  | nil => simp [direct_file_bytes, expected_entries, pure, ht]
  | cons n names ih =>
    rw [List.foldlM_cons, dir_size_entry_total fs path total n ht]
    simp only [Option.some_bind, Option.bind_eq_bind]
    rw [ih _ (off_t_wrap_wrap _), expected_entries_cons fs path n names, Int.add_assoc,
      off_t_wrap_add_left]
    congr 2
    simp only [direct_file_bytes, List.map_cons, List.sum_cons, List.map_append,
      List.sum_append]
    push_cast
    omega

/-- The value of `dir_size_recursive` on a directory that opens: the byte lengths of
its regular files plus the values of `dir_size_recursive` on its subdirectories. -/
theorem dir_size_recursive_unfold (fs : FS) (path : String) (names : List String)
    (hop : opendir fs path = some names) :
    dir_size_recursive fs path = off_t_wrap (direct_file_bytes fs path names +
      ((expected_entries fs path names).map DirEntry.size).sum) := by
  apply dir_size_recursive_eq fs (PATH_MAX + 1) path
  rw [dir_size_fuel]
  simp only [hop]
  rw [dir_size_loop_total fs path names 0 off_t_wrap_zero, Int.zero_add]

theorem dir_size_recursive_closed (fs : FS) (path : String) (hop : opendir fs path = none) :
    dir_size_recursive fs path = 0 := by
  apply dir_size_recursive_eq fs 1 path
  rw [dir_size_fuel]
  simp only [hop]

theorem expected_entries_size (fs : FS) (path : String) (names : List String) (e : DirEntry)
    (he : e ∈ expected_entries fs path names) :
    e.path = path ++ "/" ++ e.name ∧ e.size = dir_size_recursive fs e.path ∧
    e.name ∈ names ∧ is_real_subdir fs path e.name = true := by
  simp only [expected_entries, List.mem_map, List.mem_filter] at he
  obtain ⟨n, ⟨hn, hsub⟩, rfl⟩ := he
  exact ⟨rfl, rfl, hn, hsub⟩

/-! ## Independence of the enumeration order -/

theorem strcmpAux_antisymm (a b : List Char) (h1 : strcmpAux a b ≤ 0)
    (h2 : strcmpAux b a ≤ 0) : a = b := by
  induction a generalizing b with
  | nil =>
    cases b with
    | nil => rfl
    | cons y ys => simp [strcmpAux] at h2
  | cons x xs ih =>
    cases b with
    | nil => simp [strcmpAux] at h1
    | cons y ys =>
      simp only [strcmpAux] at h1 h2
      by_cases hxy : x = y
      · subst hxy
        simp only [if_true] at h1 h2
        rw [ih ys h1 h2]
      · have hne := char_toNat_ne hxy
        have hyx : ¬ y = x := fun h => hxy h.symm
        simp only [hxy, hyx, if_false] at h1 h2
        by_cases hlt : x.toNat < y.toNat
        · have : ¬ y.toNat < x.toNat := by omega
          simp [this] at h2
        · simp [hlt] at h1

theorem strcmpAux_trans (a b c : List Char) (h1 : strcmpAux a b ≤ 0)
    (h2 : strcmpAux b c ≤ 0) : strcmpAux a c ≤ 0 := by
  induction a generalizing b c with
  | nil => cases c <;> simp [strcmpAux]
  | cons x xs ih =>
    cases b with
    | nil => simp [strcmpAux] at h1
    | cons y ys =>
      cases c with
      | nil => simp [strcmpAux] at h2
      | cons z zs =>
        simp only [strcmpAux] at h1 h2 ⊢
        by_cases hxy : x = y
        · subst hxy
          simp only [if_true] at h1
          by_cases hxz : x = z
          · subst hxz
            simp only [if_true] at h2 ⊢
            exact ih ys zs h1 h2
          · simpa [hxz] using h2
        · have hxy1 := char_toNat_ne hxy
          simp only [hxy, if_false] at h1
          have hlt : x.toNat < y.toNat := by
            by_contra hc
            simp [hc] at h1
          by_cases hyz : y = z
          · subst hyz
            simp [hxy, hlt]
          · have hyz1 := char_toNat_ne hyz
            simp only [hyz, if_false] at h2
            have hlt2 : y.toNat < z.toNat := by
              by_contra hc
              simp [hc] at h2
            have hxz : x ≠ z := by
              intro hc
              rw [hc] at hlt
              omega
            have : x.toNat < z.toNat := by omega
            simp [hxz, this]

theorem compare_entries_desc_trans (a b c : DirEntry) (h1 : compare_entries_desc a b ≤ 0)
    (h2 : compare_entries_desc b c ≤ 0) : compare_entries_desc a c ≤ 0 := by
  unfold compare_entries_desc at h1 h2 ⊢
  by_cases hab : a.size < b.size
  · simp [hab] at h1
  · simp only [hab, if_false] at h1
    by_cases hbc : b.size < c.size
    · simp [hbc] at h2
    · simp only [hbc, if_false] at h2
      have hac : ¬ a.size < c.size := by omega
      simp only [hac, if_false]
      by_cases hba : a.size > b.size
      · have : a.size > c.size := by omega
        simp [this]
      · simp only [hba, if_false] at h1
        by_cases hcb : b.size > c.size
        · have : a.size > c.size := by omega
          simp [this]
        · simp only [hcb, if_false] at h2
          have : ¬ a.size > c.size := by omega
          simp only [this, if_false]
          exact strcmpAux_trans _ _ _ h1 h2

/-- Entries that compare equal both ways have the same name and the same size. -/
theorem compare_entries_desc_antisymm (a b : DirEntry) (h1 : compare_entries_desc a b ≤ 0)
    (h2 : compare_entries_desc b a ≤ 0) : a.name = b.name ∧ a.size = b.size := by
  rw [compare_entries_desc_le_iff] at h1 h2
  rcases h1 with h1 | ⟨hs1, hl1⟩
  · rcases h2 with h2 | ⟨hs2, _⟩
    · omega
    · omega
  · rcases h2 with h2 | ⟨_, hl2⟩
    · omega
    · refine ⟨?_, hs1⟩
      apply String.ext
      exact strcmpAux_antisymm _ _ ((strcmpAux_le_iff _ _).mpr hl1)
        ((strcmpAux_le_iff _ _).mpr hl2)

theorem qsort_pairwise {α : Type} (cmp : α → α → Int)
    (total : ∀ a b, cmp a b ≤ 0 ∨ cmp b a ≤ 0)
    (trans : ∀ a b c, cmp a b ≤ 0 → cmp b c ≤ 0 → cmp a c ≤ 0) (l : List α) :
    List.Pairwise (fun a b => cmp a b ≤ 0) (qsort cmp l) := by
  haveI : IsTrans α (fun a b => cmp a b ≤ 0) := ⟨trans⟩
  exact List.chain'_iff_pairwise.mp (qsort_chain cmp total l)

/-- Two sorted lists with the same elements are equal when elements that compare equal
both ways are equal. -/
theorem pairwise_perm_eq {α : Type} (r : α → α → Prop) (l1 l2 : List α)
    (hperm : l1.Perm l2) (h1 : l1.Pairwise r) (h2 : l2.Pairwise r)
    (hanti : ∀ a ∈ l1, ∀ b ∈ l1, r a b → r b a → a = b) : l1 = l2 := by
  induction l1 generalizing l2 with
  | nil => exact (List.Perm.nil_eq hperm)
  | cons a l1 ih =>
    cases l2 with
    | nil => exact absurd hperm.length_eq (by simp)
    | cons b l2 =>
      have ha : a ∈ b :: l2 := hperm.mem_iff.mp (List.mem_cons_self a l1)
      have hb : b ∈ a :: l1 := hperm.mem_iff.mpr (List.mem_cons_self b l2)
      have hab : a = b := by
        rcases List.mem_cons.mp ha with hab | hal
        · exact hab
        · rcases List.mem_cons.mp hb with hba | hbl
          · exact hba.symm
          · exact hanti a (List.mem_cons_self a l1) b hb
              ((List.pairwise_cons.mp h1).1 b hbl) ((List.pairwise_cons.mp h2).1 a hal)
      subst hab
      have hperm1 : l1.Perm l2 := List.Perm.cons_inv hperm
      have := ih l2 hperm1 (List.pairwise_cons.mp h1).2 (List.pairwise_cons.mp h2).2
        (fun x hx y hy => hanti x (List.mem_cons_of_mem a hx) y (List.mem_cons_of_mem a hy))
      rw [this]

theorem lstat_same (fs fs1 : FS) (h : fs.same_state fs1) (p : String) :
    lstat fs p = lstat fs1 p := by
  simp only [lstat, h.1 p]

theorem opendir_same (fs fs1 : FS) (h : fs.same_state fs1) (p : String) :
    same_listing (opendir fs p) (opendir fs1 p) := by
  unfold opendir
  split
  · trivial
  · exact h.2.2 p

theorem is_real_subdir_same (fs fs1 : FS) (h : fs.same_state fs1) (p : String) :
    is_real_subdir fs p = is_real_subdir fs1 p := by
  funext n
  simp only [is_real_subdir, lstat_same fs fs1 h]

theorem direct_file_size_same (fs fs1 : FS) (h : fs.same_state fs1) (p : String) :
    direct_file_size fs p = direct_file_size fs1 p := by
  funext n
  simp only [direct_file_size, lstat_same fs fs1 h]

theorem expected_entries_same (fs fs1 : FS) (h : fs.same_state fs1) (p : String)
    (names : List String)
    (hsize : ∀ n ∈ names, dir_size_recursive fs (p ++ "/" ++ n) =
      dir_size_recursive fs1 (p ++ "/" ++ n)) :
    expected_entries fs p names = expected_entries fs1 p names := by
  unfold expected_entries
  rw [is_real_subdir_same fs fs1 h p]
  apply List.map_congr_left
  intro n hn
  rw [hsize n (List.mem_filter.mp hn).1]

theorem expected_entries_perm (fs : FS) (p : String) (names names1 : List String)
    (h : names.Perm names1) :
    (expected_entries fs p names).Perm (expected_entries fs p names1) := by
  unfold expected_entries
  exact (h.filter _).map _

theorem dir_size_recursive_same_aux (fs fs1 : FS) (h : fs.same_state fs1) (k : Nat) :
    ∀ p : String, PATH_MAX ≤ k + p.length →
      dir_size_recursive fs p = dir_size_recursive fs1 p := by
  induction k with
  | zero =>
    intro p hp
    have hlong : PATH_MAX ≤ p.length := by omega
    rw [dir_size_recursive_closed fs p (opendir_long fs p hlong),
      dir_size_recursive_closed fs1 p (opendir_long fs1 p hlong)]
  | succ k ih =>
    intro p hp
    have hlist := opendir_same fs fs1 h p
    cases hop : opendir fs p with
    | none =>
      cases hop1 : opendir fs1 p with
      | none =>
        rw [dir_size_recursive_closed fs p hop, dir_size_recursive_closed fs1 p hop1]
      | some names1 =>
        rw [hop, hop1] at hlist
        exact absurd hlist (by simp [same_listing])
    | some names =>
      cases hop1 : opendir fs1 p with
      | none =>
        rw [hop, hop1] at hlist
        exact absurd hlist (by simp [same_listing])
      | some names1 =>
        rw [hop, hop1] at hlist
        simp only [same_listing] at hlist
        rw [dir_size_recursive_unfold fs p names hop,
          dir_size_recursive_unfold fs1 p names1 hop1]
        have hkids : ∀ n ∈ names1, dir_size_recursive fs (p ++ "/" ++ n) =
            dir_size_recursive fs1 (p ++ "/" ++ n) := by
          intro n _
          have := child_path_length p n
          exact ih (p ++ "/" ++ n) (by omega)
        rw [← expected_entries_same fs fs1 h p names1 hkids]
        have h1 : direct_file_bytes fs p names = direct_file_bytes fs1 p names1 := by
          unfold direct_file_bytes
          rw [← direct_file_size_same fs fs1 h p]
          exact (hlist.map _).sum_eq
        have h2 := ((expected_entries_perm fs p names names1 hlist).map DirEntry.size).sum_eq
        rw [h1, h2]

theorem dir_size_recursive_same (fs fs1 : FS) (h : fs.same_state fs1) (p : String) :
    dir_size_recursive fs p = dir_size_recursive fs1 p :=
  dir_size_recursive_same_aux fs fs1 h PATH_MAX p (by omega)

/-- Entries of one scan that compare equal both ways are equal. -/
theorem expected_entries_antisymm (fs : FS) (p : String) (names : List String)
    (a b : DirEntry) (ha : a ∈ expected_entries fs p names)
    (hb : b ∈ expected_entries fs p names) (h1 : compare_entries_desc a b ≤ 0)
    (h2 : compare_entries_desc b a ≤ 0) : a = b := by
  obtain ⟨hname, hsize⟩ := compare_entries_desc_antisymm a b h1 h2
  have hap := (expected_entries_size fs p names a ha).1
  have hbp := (expected_entries_size fs p names b hb).1
  cases a with
  | mk an ap az =>
    cases b with
    | mk bn bp bz =>
      simp only at hname hsize hap hbp
      subst hname hsize
      rw [hap, hbp]

/-- The views of two scans of one directory in one file system state. -/
theorem scan_directory_same (fs fs1 : FS) (hsame : fs.same_state fs1) (mem mem1 : Mem)
    (path : String) (v v1 : DirView) (h : scan_directory fs mem path = some v)
    (h1 : scan_directory fs1 mem1 path = some v1) :
    v.entries = v1.entries ∧ v.total_size = v1.total_size := by
  obtain ⟨names, hop, hent, htot⟩ := scan_directory_spec fs mem path v h
  obtain ⟨names1, hop1, hent1, htot1⟩ := scan_directory_spec fs1 mem1 path v1 h1
  have hlist := opendir_same fs fs1 hsame path
  rw [hop, hop1] at hlist
  simp only [same_listing] at hlist
  have hexp : expected_entries fs1 path names1 = expected_entries fs path names1 :=
    (expected_entries_same fs fs1 hsame path names1
      (fun n _ => dir_size_recursive_same fs fs1 hsame _)).symm
  have hperm := expected_entries_perm fs path names names1 hlist
  constructor
  · rw [hent, hent1, hexp]
    apply pairwise_perm_eq (fun a b => compare_entries_desc a b ≤ 0)
    · exact ((qsort_perm _ _).trans hperm).trans (qsort_perm _ _).symm
    · exact qsort_pairwise _ compare_entries_desc_total compare_entries_desc_trans _
    · exact qsort_pairwise _ compare_entries_desc_total compare_entries_desc_trans _
    · intro a ha b hb
      exact expected_entries_antisymm fs path names a b ((qsort_perm _ _).mem_iff.mp ha)
        ((qsort_perm _ _).mem_iff.mp hb)
  · have := (dir_size_recursive_same fs fs1 hsame path)
    rw [dir_size_recursive_unfold fs path names hop,
      dir_size_recursive_unfold fs1 path names1 hop1] at this
    rw [htot, htot1, this]

/-- C13: two scans of one directory in one file system state return views with the same
entries in the same order and the same total size, in whatever order `readdir`
enumerates the children of any directory; a successful Rescan puts such a view in
place and sets the selection and the scroll offset to 0. -/
theorem scan_directory_deterministic (fs fs1 : FS) (hsame : fs.same_state fs1)
    (mem mem1 : Mem) (path : String) (v v1 : DirView)
    (h : scan_directory fs mem path = some v)
    (h1 : scan_directory fs1 mem1 path = some v1) :
    v.entries = v1.entries ∧ v.total_size = v1.total_size ∧
    (∀ (rows : Int) (env : Env) (selected scroll_offset : Int),
      env.fs = fs1 → env.mem = mem1 →
      ui_step rows env ⟨path, some v, selected, scroll_offset⟩ Key.rescan =
        Outcome.running ⟨path, some v1, 0, 0⟩) := by
  obtain ⟨he, ht⟩ := scan_directory_same fs fs1 hsame mem mem1 path v v1 h h1
  refine ⟨he, ht, ?_⟩
  intro rows env selected scroll_offset hfs hmem
  simp only [ui_step, ui_key, hfs, hmem, h1]

theorem fsDemoShuffled_same : fsDemo.same_state fsDemoShuffled := by
  refine ⟨fun _ => rfl, fun _ => rfl, ?_⟩
  intro p
  simp only [fsDemo, fsDemoShuffled]
  split
  · simp only [same_listing]
    decide
  · split
    · simp only [same_listing]
      decide
    · split
      · simp only [same_listing]
        decide
      · trivial

theorem scan_directory_deterministic_witness :
    fsDemo.same_state fsDemoShuffled ∧
    scan_directory fsDemo Mem.ok "/tmp/t" = some viewDemo ∧
    scan_directory fsDemoShuffled Mem.ok "/tmp/t" = some viewDemo ∧
    (viewDemo.entries = viewDemo.entries ∧ viewDemo.total_size = viewDemo.total_size ∧
    (∀ (rows : Int) (env : Env) (selected scroll_offset : Int),
      env.fs = fsDemoShuffled → env.mem = Mem.ok →
      ui_step rows env ⟨"/tmp/t", some viewDemo, selected, scroll_offset⟩ Key.rescan =
        Outcome.running ⟨"/tmp/t", some viewDemo, 0, 0⟩)) :=
  ⟨fsDemoShuffled_same, by decide, by decide,
    scan_directory_deterministic fsDemo fsDemoShuffled fsDemoShuffled_same Mem.ok Mem.ok
      "/tmp/t" viewDemo viewDemo (by decide) (by decide)⟩

/-! ## Paths -/

theorem dropWhile_append_of_all {α : Type} (p : α → Bool) (l r : List α)
    (h : ∀ x ∈ l, p x = true) : (l ++ r).dropWhile p = r.dropWhile p := by
  induction l with
  | nil => rfl
  | cons a l ih =>
    have ha : p a = true := h a (List.mem_cons_self a l)
    simp only [List.cons_append, List.dropWhile_cons, ha, if_true]
    exact ih (fun x hx => h x (List.mem_cons_of_mem a hx))

theorem takeWhile_append_of_all {α : Type} (p : α → Bool) (l : List α) (x : α) (r : List α)
    (h : ∀ y ∈ l, p y = true) (hx : p x = false) : (l ++ x :: r).takeWhile p = l := by
  induction l with
  | nil => simp [List.takeWhile_cons, hx]
  | cons a l ih =>
    have ha : p a = true := h a (List.mem_cons_self a l)
    simp only [List.cons_append, List.takeWhile_cons, ha, if_true]
    rw [ih (fun y hy => h y (List.mem_cons_of_mem a hy))]

theorem dropWhile_head {α : Type} (p : α → Bool) (l : List α) (a : α) (r : List α)
    (h : l.dropWhile p = a :: r) : p a = false := by
  induction l with
  | nil => simp at h
  | cons b l ih =>
    rw [List.dropWhile_cons] at h
    split at h
    · exact ih h
    · rename_i hb
      simp only [List.cons.injEq] at h
      rw [← h.1]
      simpa using hb

/-- In a path without repeated separators, what precedes a separator does not end
with one. -/
theorem no_repeated_before_separator (q rest : List Char)
    (h : no_repeated_separators (q ++ '/' :: rest) = true) : q.getLast? ≠ some '/' := by
  induction q with
  | nil => simp
  | cons a q ih =>
    cases q with
    | nil =>
      simp only [List.cons_append, List.nil_append, no_repeated_separators, Bool.and_eq_true,
        Bool.not_eq_true', Bool.and_eq_false_imp, decide_eq_true_eq] at h
      simp only [List.getLast?_singleton, ne_eq, Option.some.injEq]
      intro ha
      have := h.1 ha
      simp at this
    | cons b q =>
      simp only [List.cons_append, no_repeated_separators, Bool.and_eq_true] at h
      have := ih h.2
      simpa [List.getLast?_cons_cons] using this

theorem no_repeated_append_name (p n : List Char) (hp : no_repeated_separators p = true)
    (hlast : p.getLast? ≠ some '/') (hn : '/' ∉ n) :
    no_repeated_separators (p ++ '/' :: n) = true := by
  have hsep : ∀ m : List Char, '/' ∉ m → no_repeated_separators ('/' :: m) = true := by
    intro m
    induction m with
    | nil => intro _; rfl
    | cons c m ih =>
      intro hm
      have hc : c ≠ '/' := fun h => hm (by simp [h])
      have hm1 : '/' ∉ m := fun h => hm (List.mem_cons_of_mem c h)
      simp only [no_repeated_separators, Bool.and_eq_true, Bool.not_eq_true',
        Bool.and_eq_false_imp, decide_eq_true_eq]
      refine ⟨fun _ => by simpa using hc, ?_⟩
      cases m with
      | nil => rfl
      | cons d m =>
        have hd : d ≠ '/' := fun h => hm1 (by simp [h])
        have := ih hm1
        simp only [no_repeated_separators, Bool.and_eq_true, Bool.not_eq_true',
          Bool.and_eq_false_imp, decide_eq_true_eq] at this ⊢
        exact ⟨fun h => absurd h hc, this.2⟩
  induction p with
  | nil => exact hsep n hn
  | cons a p ih =>
    cases p with
    | nil =>
      have ha : a ≠ '/' := by simpa using hlast
      simp only [List.cons_append, List.nil_append, no_repeated_separators, Bool.and_eq_true,
        Bool.not_eq_true', Bool.and_eq_false_imp, decide_eq_true_eq]
      exact ⟨fun h => absurd h ha, hsep n hn⟩
    | cons b p =>
      simp only [no_repeated_separators, Bool.and_eq_true] at hp
      have hl : (b :: p).getLast? ≠ some '/' := by
        simpa [List.getLast?_cons_cons] using hlast
      simp only [List.cons_append, no_repeated_separators, Bool.and_eq_true]
      exact ⟨hp.1, ih hp.2 hl⟩

theorem getLast?_append_name (q : List Char) (x : Char) (n : List Char) (hn : n ≠ []) :
    (q ++ x :: n).getLast? = n.getLast? := by
  rw [List.getLast?_append_of_ne_nil _ (by simp)]
  cases n with
  | nil => exact absurd rfl hn
  | cons c m => exact List.getLast?_cons_cons

theorem strncpy_short (s : String) (n : Nat) (h : s.length ≤ n) : strncpy s n = s := by
  unfold strncpy
  apply String.ext
  exact List.take_of_length_le h

/-- The parts of a path that ends with a file name: what precedes the last separator,
and the name after it. -/
theorem dirnameAux_split (q n : List Char) (hn : n ≠ []) (hslash : '/' ∉ n)
    (hnorm : no_repeated_separators (q ++ '/' :: n) = true) :
    dirnameAux (q ++ '/' :: n) = if q = [] then ['/'] else q := by
  have hall : ∀ c ∈ n.reverse, (fun c : Char => decide (c ≠ '/')) c = true := by
    intro c hc
    have : c ∈ n := List.mem_reverse.mp hc
    simp only [decide_eq_true_eq]
    intro h
    exact hslash (h ▸ this)
  have hlastn : n.getLast? ≠ some '/' := by
    intro h
    exact hslash (List.mem_of_getLast?_eq_some h)
  have hlast : (q ++ '/' :: n).getLast? ≠ some '/' := by
    rw [getLast?_append_name q '/' n hn]
    exact hlastn
  have hq : q.getLast? ≠ some '/' := no_repeated_before_separator q n hnorm
  have hrev : (q ++ '/' :: n).reverse = n.reverse ++ '/' :: q.reverse := by simp
  have hdrop : ((q ++ '/' :: n).reverse.dropWhile (fun c => decide (c ≠ '/'))) =
      '/' :: q.reverse := by
    rw [hrev, dropWhile_append_of_all _ _ _ hall]
    simp [List.dropWhile_cons]
  have hstrip : dropSlashes q.reverse = q.reverse := by
    unfold dropSlashes
    cases hqr : q.reverse with
    | nil => rfl
    | cons a r =>
      have ha : a ≠ '/' := by
        intro h
        apply hq
        have : q = (a :: r).reverse := by rw [← hqr, List.reverse_reverse]
        rw [this, h]
        simp
      simp [List.dropWhile_cons, ha]
  unfold dirnameAux
  simp only [hlast, and_false, if_false]
  have hmem : '/' ∈ q ++ '/' :: n := by simp
  simp only [hmem, not_true_eq_false, if_false, hdrop, List.drop_succ_cons, List.drop_zero,
    List.reverse_reverse, hstrip]
  by_cases hqe : q = []
  · subst hqe
    simp
  · simp [hqe]

/-- The value of `parent_path` on a path that ends with a separator and a file name:
what precedes that separator, or `/` when nothing does; it is never the path itself. -/
theorem parent_path_split (q n : String) (hn : is_file_name n)
    (hnorm : is_absolute_normalized (q ++ "/" ++ n))
    (hlen : (q ++ "/" ++ n).length < PATH_MAX) :
    parent_path (q ++ "/" ++ n) = (if q = "" then "/" else q) ∧
    parent_path (q ++ "/" ++ n) ≠ q ++ "/" ++ n := by
  have hdata : (q ++ "/" ++ n).data = q.data ++ '/' :: n.data := by
    simp [String.data_append]
  have hone : "/".length = 1 := rfl
  have hnl : n.length ≠ 0 := fun h0 => hn.1 (List.length_eq_zero.mp h0)
  have hl2 : (q ++ "/" ++ n).length = q.length + 1 + n.length := by
    rw [String.length_append, String.length_append, hone]
  have hne : (q ++ "/" ++ n) ≠ "/" := by
    intro h
    have hl := congrArg String.length h
    rw [hl2, hone] at hl
    omega
  have hdir : dirname (q ++ "/" ++ n) = (if q = "" then "/" else q) := by
    unfold dirname
    apply String.ext
    rw [hdata, dirnameAux_split q.data n.data hn.1 hn.2 (hdata ▸ hnorm.2.1)]
    by_cases hq : q = ""
    · subst hq
      simp
    · have : q.data ≠ [] := by
        intro h
        apply hq
        exact String.ext h
      simp [hq, this]
  have hlen1 : (if q = "" then "/" else q).length ≤ PATH_MAX - 1 := by
    split
    · decide
    · omega
  have hval : parent_path (q ++ "/" ++ n) = (if q = "" then "/" else q) := by
    unfold parent_path
    simp only [strcmp_eq_zero_iff, hne, if_false]
    rw [strncpy_short (q ++ "/" ++ n) (PATH_MAX - 1) (by omega), hdir]
    have hnonempty : (if q = "" then "/" else q).data ≠ [] := by
      split
      · decide
      · rename_i hq
        intro h
        apply hq
        exact String.ext h
    simp only [hnonempty, if_false]
    exact strncpy_short _ _ hlen1
  refine ⟨hval, ?_⟩
  rw [hval]
  intro h
  have hl := congrArg String.length h
  rw [hl2] at hl
  split at hl
  · rw [hone] at hl
    omega
  · omega

/-- Every absolute normalized path other than `/` ends with a separator and a file
name. -/
theorem normalized_split (p : String) (hnorm : is_absolute_normalized p) (hne : p ≠ "/") :
    ∃ q n : String, is_file_name n ∧ p = q ++ "/" ++ n ∧ n = last_component p := by
  obtain ⟨hhead, hrep, hlast⟩ := hnorm
  have hlast1 : p.data.getLast? ≠ some '/' := by
    rcases hlast with h | h
    · exact absurd (String.ext h : p = "/") hne
    · exact h
  have hmem : '/' ∈ p.data := by
    cases hp : p.data with
    | nil => simp [hp] at hhead
    | cons a l =>
      simp only [hp, List.head?_cons, Option.some.injEq] at hhead
      simp [hhead]
  -- the name: the characters after the last separator
  obtain ⟨nr, hnr⟩ : ∃ nr, nr = p.data.reverse.takeWhile (fun c => decide (c ≠ '/')) := ⟨_, rfl⟩
  obtain ⟨qr, hqr⟩ : ∃ qr, qr = p.data.reverse.dropWhile (fun c => decide (c ≠ '/')) := ⟨_, rfl⟩
  have hsplit : p.data.reverse = nr ++ qr := by
    rw [hnr, hqr, List.takeWhile_append_dropWhile]
  have hqr_head : ∃ r, qr = '/' :: r := by
    cases hq : qr with
    | nil =>
      exfalso
      have hall : ∀ c ∈ p.data.reverse, c ≠ '/' := by
        intro c hc
        rw [hsplit, hq, List.append_nil, hnr] at hc
        simpa using (List.mem_takeWhile_imp hc)
      exact hall '/' (List.mem_reverse.mpr hmem) rfl
    | cons a r =>
      have := dropWhile_head (fun c => decide (c ≠ '/')) p.data.reverse a r (by rw [← hqr, hq])
      simp only [ne_eq, decide_not, Bool.not_eq_false', decide_eq_true_eq] at this
      exact ⟨r, by rw [this]⟩
  obtain ⟨r, hr⟩ := hqr_head
  have hnr_all : ∀ c ∈ nr, c ≠ '/' := by
    intro c hc
    rw [hnr] at hc
    simpa using (List.mem_takeWhile_imp hc)
  have hpd : p.data = r.reverse ++ '/' :: nr.reverse := by
    have := congrArg List.reverse hsplit
    rw [List.reverse_reverse, hr] at this
    rw [this]
    simp
  have hnr_ne : nr ≠ [] := by
    intro h
    apply hlast1
    rw [hpd, h]
    simp
  refine ⟨⟨r.reverse⟩, ⟨nr.reverse⟩, ⟨?_, ?_⟩, ?_, ?_⟩
  · simpa using hnr_ne
  · intro h
    exact hnr_all '/' (List.mem_reverse.mp h) rfl
  · apply String.ext
    simp [String.data_append, hpd]
  · unfold last_component
    rw [← hnr]

/-- C17: `parent_path` maps `/` to `/` and every other absolute normalized path to the
path without its last component, `/` when nothing else is left, which is never the
path itself; GoToParent on `/` leaves the state as it is whatever the file system, and
on any other such path it scans the parent and moves there when the scan succeeds. -/
theorem parent_path_spec :
    parent_path "/" = "/" ∧
    (∀ p : String, is_absolute_normalized p → p ≠ "/" → p.length < PATH_MAX →
      ∃ q n : String, is_file_name n ∧ n = last_component p ∧ p = q ++ "/" ++ n ∧
        parent_path p = (if q = "" then "/" else q) ∧ parent_path p ≠ p) ∧
    (∀ (rows : Int) (env : Env) (v : DirView) (selected scroll_offset : Int),
      ui_step rows env ⟨"/", some v, selected, scroll_offset⟩ Key.parent =
        Outcome.running ⟨"/", some v, selected, scroll_offset⟩) ∧
    (∀ p : String, is_absolute_normalized p → p ≠ "/" → p.length < PATH_MAX →
      ∀ (rows : Int) (env : Env) (v w : DirView) (selected scroll_offset : Int),
        scan_directory env.fs env.mem (parent_path p) = some w →
        ui_step rows env ⟨p, some v, selected, scroll_offset⟩ Key.parent =
          Outcome.running ⟨parent_path p, some w, 0, 0⟩) := by
  have hroot : parent_path "/" = "/" := by decide
  have hsplit : ∀ p : String, is_absolute_normalized p → p ≠ "/" → p.length < PATH_MAX →
      ∃ q n : String, is_file_name n ∧ n = last_component p ∧ p = q ++ "/" ++ n ∧
        parent_path p = (if q = "" then "/" else q) ∧ parent_path p ≠ p := by
    intro p hnorm hne hlen
    obtain ⟨q, n, hn, hp, hlast⟩ := normalized_split p hnorm hne
    have := parent_path_split q n hn (hp ▸ hnorm) (hp ▸ hlen)
    rw [← hp] at this
    exact ⟨q, n, hn, hlast, hp, this.1, this.2⟩
  refine ⟨hroot, hsplit, ?_, ?_⟩
  · intro rows env v selected scroll_offset
    simp only [ui_step, ui_key, hroot, strcmp_eq_zero_iff, if_true]
  · intro p hnorm hne hlen rows env v w selected scroll_offset hscan
    obtain ⟨q, n, hn, _, hp, hval, hneq⟩ := hsplit p hnorm hne hlen
    have hshort : (parent_path p).length ≤ PATH_MAX - 1 := by
      have hone : "/".length = 1 := rfl
      have hl : p.length = q.length + 1 + n.length := by
        rw [hp, String.length_append, String.length_append, hone]
      rw [hval]
      split
      · decide
      · omega
    simp only [ui_step, ui_key, strcmp_eq_zero_iff, hneq, if_false, hscan,
      strncpy_short _ _ hshort]

/-! ## Paths of the entries -/

/-- C15, as stated, fails on the root directory: the scan of `/` stores `//usr` as the
path of the entry `usr`. -/
theorem scan_directory_entry_paths_counterexample :
    is_absolute_normalized "/" ∧
    scan_directory fsRoot Mem.ok "/" = some ⟨some "/", [⟨"usr", "//usr", 0⟩], 0⟩ ∧
    no_repeated_separators "//usr".data = false := by
  refine ⟨?_, by decide, by decide⟩
  unfold is_absolute_normalized
  decide

/-- C15, amended: after a successful scan of an absolute normalized path other than
`/`, the path stored in every entry is the scanned path, a separator and the name of
the entry; it is an absolute normalized path and its last component is the name. -/
theorem scan_directory_entry_paths (fs : FS) (mem : Mem) (path : String) (v : DirView)
    (names : List String) (hnorm : is_absolute_normalized path) (hne : path ≠ "/")
    (h : scan_directory fs mem path = some v) (hop : opendir fs path = some names)
    (hnames : ∀ n ∈ names, is_file_name n) :
    ∀ e ∈ v.entries, e.path = path ++ "/" ++ e.name ∧ is_absolute_normalized e.path ∧
      last_component e.path = e.name := by
  intro e he
  have he1 : e ∈ expected_entries fs path names :=
    (scan_directory_perm fs mem path v names h hop).mem_iff.mp he
  obtain ⟨hpath, _, hmem, _⟩ := expected_entries_size fs path names e he1
  obtain ⟨hn1, hn2⟩ := hnames e.name hmem
  obtain ⟨hhead, hrep, hlast⟩ := hnorm
  have hlast1 : path.data.getLast? ≠ some '/' := by
    rcases hlast with hl | hl
    · exact absurd (String.ext hl : path = "/") hne
    · exact hl
  have hdata : (path ++ "/" ++ e.name).data = path.data ++ '/' :: e.name.data := by
    simp [String.data_append]
  refine ⟨hpath, ?_, ?_⟩
  · rw [hpath]
    unfold is_absolute_normalized
    rw [hdata]
    refine ⟨?_, no_repeated_append_name _ _ hrep hlast1 hn2, Or.inr ?_⟩
    · cases hp : path.data with
      | nil => simp [hp] at hhead
      | cons a l =>
        rw [hp] at hhead
        simpa using hhead
    · rw [getLast?_append_name _ _ _ hn1]
      intro hc
      exact hn2 (List.mem_of_getLast?_eq_some hc)
  · rw [hpath]
    unfold last_component
    apply String.ext
    rw [hdata]
    have hrev : (path.data ++ '/' :: e.name.data).reverse =
        e.name.data.reverse ++ '/' :: path.data.reverse := by simp
    rw [hrev, takeWhile_append_of_all _ _ _ _ _ (by simp), List.reverse_reverse]
    intro c hc
    have : c ∈ e.name.data := List.mem_reverse.mp hc
    simp only [decide_eq_true_eq]
    intro hcs
    exact hn2 (hcs ▸ this)

theorem fsDemo_normalized : is_absolute_normalized "/tmp/t" := by
  unfold is_absolute_normalized
  decide

theorem fsDemo_names : ∀ n ∈ [".", "..", "c", "b", "a"], is_file_name n := by
  unfold is_file_name
  decide

theorem scan_directory_entry_paths_witness :
    is_absolute_normalized "/tmp/t" ∧ "/tmp/t" ≠ "/" ∧
    scan_directory fsDemo Mem.ok "/tmp/t" = some viewDemo ∧
    opendir fsDemo "/tmp/t" = some [".", "..", "c", "b", "a"] ∧
    (∀ n ∈ [".", "..", "c", "b", "a"], is_file_name n) ∧
    (∀ e ∈ viewDemo.entries, e.path = "/tmp/t" ++ "/" ++ e.name ∧
      is_absolute_normalized e.path ∧ last_component e.path = e.name) :=
  ⟨fsDemo_normalized, by decide, by decide, by decide, fsDemo_names,
    scan_directory_entry_paths fsDemo Mem.ok "/tmp/t" viewDemo [".", "..", "c", "b", "a"]
      fsDemo_normalized (by decide) (by decide) (by decide) fsDemo_names⟩

/-! ## Going to the parent and back -/

theorem same_state_refl (fs : FS) : fs.same_state fs := by
  refine ⟨fun _ => rfl, fun _ => rfl, ?_⟩
  intro p
  cases fs.dirs p with
  | none => trivial
  | some l => exact List.Perm.refl l

theorem scan_directory_path (fs : FS) (path : String) (v : DirView)
    (h : scan_directory fs Mem.ok path = some v) : v.path = some path := by
  unfold scan_directory at h
  split at h
  · exact absurd h (by simp)
  · split at h
    · exact absurd h (by simp)
    · simp only [Mem.ok, if_true, Option.some.injEq] at h
      rw [← h]

theorem scan_directory_short (fs : FS) (mem : Mem) (path : String) (v : DirView)
    (h : scan_directory fs mem path = some v) : path.length ≤ PATH_MAX - 1 := by
  obtain ⟨names, hop, _, _⟩ := scan_directory_spec fs mem path v h
  by_contra hc
  rw [opendir_long fs path (by omega)] at hop
  exact absurd hop (by simp)

theorem size_t_of_nat (k : Nat) (hk : k < 2 ^ 31) : size_t_of_int (k : Int) = k := by
  unfold size_t_of_int
  have : ((k : Int) % 2 ^ 64) = (k : Int) := by
    apply Int.emod_eq_of_lt
    · omega
    · have : (2 : Int) ^ 31 ≤ 2 ^ 64 := by norm_num
      have hk1 : (k : Int) < 2 ^ 31 := by exact_mod_cast hk
      omega
  rw [this]
  simp

/-- `KEY_DOWN` pressed `j` times moves the selection down by `j` entries while entries
remain. -/
theorem ui_loop_down (rows : Int) (env : Env) (p : String) (vp : DirView)
    (rest : List (Env × Key)) (j : Nat) :
    ∀ (sel : Nat) (scr : Int), sel + j < vp.count → sel + j < 2 ^ 31 →
    ∃ scr1 : Int, ui_loop rows ⟨p, some vp, (sel : Int), scr⟩
        (List.replicate j (env, Key.down) ++ rest) =
      ui_loop rows ⟨p, some vp, ((sel + j : Nat) : Int), scr1⟩ rest := by
  induction j with
  | zero =>
    intro sel scr _ _
    exact ⟨scr, rfl⟩
  | succ j ih =>
    intro sel scr hcount hint
    have hcast := size_t_of_nat sel (by omega)
    have hmod : (sel + 1) % 2 ^ 64 = sel + 1 := by
      apply Nat.mod_eq_of_lt
      have : (2 : Nat) ^ 31 ≤ 2 ^ 64 := by norm_num
      omega
    have hcond : (size_t_of_int (sel : Int) + 1) % 2 ^ 64 < vp.count := by
      rw [hcast, hmod]
      omega
    obtain ⟨scr1, h1⟩ := ih (sel + 1)
      (if (sel : Int) + 1 ≥ scr + (rows - 5) then (sel : Int) + 1 - (rows - 5) + 1 else scr)
      (by omega) (by omega)
    refine ⟨scr1, ?_⟩
    have hidx : sel + 1 + j = sel + (j + 1) := by omega
    rw [hidx] at h1
    rw [← h1]
    simp only [List.replicate_succ, List.cons_append, ui_loop, ui_step, ui_key, hcond, if_true]
    push_cast
    rfl

/-- C16: in an unchanged file system, from a state whose current path is an absolute
normalized path other than `/` and whose view is a scan of it, a successful
GoToParent, `KEY_DOWN` up to the entry named after the last component of that path,
and Enter, the path of that entry resolving to the original path, end in the original
current path with a view equal to the original one in path, entries and total size. -/
theorem ui_round_trip (rows : Int) (fs : FS) (c : String) (v vp : DirView) (mem0 : Mem)
    (selected scroll_offset : Int) (i : Nat) (e : DirEntry)
    (hnorm : is_absolute_normalized c) (hne : c ≠ "/")
    (hview : scan_directory fs mem0 c = some v) (hvpath : v.path = some c)
    (hparent : scan_directory fs Mem.ok (parent_path c) = some vp)
    (hentry : vp.entries.get? i = some e) (hname : e.name = last_component c)
    (hi : i < 2 ^ 31)
    (hcanon : realpath fs (parent_path c ++ "/" ++ last_component c) = some c) :
    ui_loop rows ⟨c, some v, selected, scroll_offset⟩
      ((Env.still fs, Key.parent) ::
        (List.replicate i (Env.still fs, Key.down) ++ [(Env.still fs, Key.enter)])) =
      Outcome.running ⟨c, some v, 0, 0⟩ := by
  have hclen := scan_directory_short fs mem0 c v hview
  have hplen := scan_directory_short fs Mem.ok (parent_path c) vp hparent
  -- the parent differs from the current path
  have hpos : 0 < PATH_MAX := by decide
  have hneq : parent_path c ≠ c := by
    obtain ⟨q, n, hn, hp, _⟩ := normalized_split c hnorm hne
    have := (parent_path_split q n hn (hp ▸ hnorm) (by rw [← hp]; omega)).2
    rw [← hp] at this
    exact this
  -- GoToParent
  have hstep1 : ui_step rows (Env.still fs) ⟨c, some v, selected, scroll_offset⟩ Key.parent =
      Outcome.running ⟨parent_path c, some vp, ((0 : Nat) : Int), 0⟩ := by
    simp only [ui_step, ui_key, strcmp_eq_zero_iff, hneq, if_false, Env.still, hparent,
      strncpy_short _ _ hplen]
    rfl
  -- the selection moves to the entry
  have hicount : i < vp.count := by
    unfold DirView.count
    exact (List.get?_eq_some.mp hentry).1
  obtain ⟨scr1, hdown⟩ := ui_loop_down rows (Env.still fs) (parent_path c) vp
    [(Env.still fs, Key.enter)] i 0 0 (by omega) (by omega)
  -- Enter
  have hmem : e ∈ vp.entries := List.get?_mem hentry
  obtain ⟨names, hop, hent, _⟩ := scan_directory_spec fs Mem.ok (parent_path c) vp hparent
  have hepath : e.path = parent_path c ++ "/" ++ last_component c := by
    have he1 : e ∈ expected_entries fs (parent_path c) names := by
      rw [hent] at hmem
      exact (qsort_perm _ _).mem_iff.mp hmem
    rw [(expected_entries_size fs (parent_path c) names e he1).1, hname]
  obtain ⟨names0, hop0, _, _⟩ := scan_directory_spec fs mem0 c v hview
  obtain ⟨v1, hv1⟩ := Option.isSome_iff_exists.mp
    (scan_directory_isSome fs Mem.ok c (by rw [hop0]; rfl) (fun _ => rfl))
  have hv1eq : v1 = v := by
    obtain ⟨he, ht⟩ := scan_directory_same fs fs (same_state_refl fs) Mem.ok mem0 c v1 v
      hv1 hview
    have hp := scan_directory_path fs c v1 hv1
    cases v1 with
    | mk p1 e1 t1 =>
      cases v with
      | mk p0 e0 t0 =>
        simp only at he ht hp hvpath
        rw [he, ht, hp, hvpath]
  have hcount0 : ¬ vp.count = 0 := by omega
  have hstep3 : ui_step rows (Env.still fs) ⟨parent_path c, some vp, ((0 + i : Nat) : Int), scr1⟩
      Key.enter = Outcome.running ⟨c, some v, 0, 0⟩ := by
    have hsel : ¬ (((0 + i : Nat) : Int) < 0) := by omega
    have hnat : (((0 + i : Nat) : Int)).toNat = i := by simp
    simp only [ui_step, ui_key, hcount0, if_false, hsel, hnat, hentry, Env.still, hepath,
      hcanon, hv1, hv1eq, strncpy_short _ _ hclen]
  simp only [ui_loop, hstep1]
  rw [hdown]
  simp only [ui_loop, hstep3]

theorem fsRoot_usr_normalized : is_absolute_normalized "/usr" := by
  unfold is_absolute_normalized
  decide

theorem ui_round_trip_witness :
    is_absolute_normalized "/usr" ∧ "/usr" ≠ "/" ∧
    scan_directory fsRoot Mem.ok "/usr" = some viewUsr ∧ viewUsr.path = some "/usr" ∧
    scan_directory fsRoot Mem.ok (parent_path "/usr") = some viewRoot ∧
    viewRoot.entries.get? 0 = some ⟨"usr", "//usr", 0⟩ ∧
    (⟨"usr", "//usr", 0⟩ : DirEntry).name = last_component "/usr" ∧ 0 < 2 ^ 31 ∧
    realpath fsRoot (parent_path "/usr" ++ "/" ++ last_component "/usr") = some "/usr" ∧
    ui_loop 24 ⟨"/usr", some viewUsr, 0, 0⟩
      ((Env.still fsRoot, Key.parent) ::
        (List.replicate 0 (Env.still fsRoot, Key.down) ++ [(Env.still fsRoot, Key.enter)])) =
      Outcome.running ⟨"/usr", some viewUsr, 0, 0⟩ :=
  ⟨fsRoot_usr_normalized, by decide, by decide, by decide, by decide, by decide, by decide,
    by decide, by decide,
    ui_round_trip 24 fsRoot "/usr" viewUsr viewRoot Mem.ok 0 0 0 ⟨"usr", "//usr", 0⟩
      fsRoot_usr_normalized (by decide) (by decide) (by decide) (by decide) (by decide)
      (by decide) (by decide) (by decide)⟩

/-! ## The size of an entry and the total shown after entering it -/

end DiskUsage
